import Mathlib

/-!
Verification of the skip list implemented in src/src/lib.rs.

The Rust code builds a raw-pointer skip list.  The shallow embedding below
replaces the heap by an arena: `SkipList.nodes` is the list of all allocated
nodes, a `NonNull<Node<K, V>>` pointer is an arena index, and the head
sentinel created by `SkipList::new` is the node at index 0.  The unchecked
tower indexing (`Tower::index` / `Tower::index_mut`, which call
`get_unchecked`) and the `Option::unwrap` calls are modelled in the `Option`
monad: `none` is the failure / undefined-behaviour outcome.  The unbounded
`while` loops of `find_gt_or_eq_node` and `Drop::drop` are modelled with a
fuel argument of `nodes.length + 1`, which is shown sufficient under the
structural invariant.  `random::<usize>()` draws are modelled by an explicit
coin stream `Nat → Nat`.  Byte-level layout arithmetic of `Node::alloc` is
modelled separately at the end by pure functions on sizes (64-bit target:
pointers are 8 bytes, `mem::size_of::<Layout>()` is 16 bytes).
-/

namespace RustySkipList

set_option linter.unusedSectionVars false
set_option linter.unusedVariables false

/-- `MAX_LEVEL` (src/src/lib.rs line 9). -/
def MAX_LEVEL : Nat := 20

/-- A skip-list node (lines 29-35).  `tower` models the flexible array of
forward pointers that follows the node header; its entries are arena indices.
The `layout` bookkeeping field of the Rust struct only feeds `dealloc` and the
byte-size model at the end of this file, so it is not repeated here. -/
structure Node (K V : Type) where
  key : K
  val : V
  tower : List (Option Nat)

/-- The skip list (lines 88-92).  The `head: NonNull<Node<K, V>>` field is the
arena index 0 of `nodes`; `size` and `level` are as in the source. -/
structure SkipList (K V : Type) where
  nodes : List (Node K V)
  size : Nat
  level : Nat

variable {K V : Type} [LinearOrder K] [Inhabited K] [Inhabited V]

/-- `SkipList::new` (lines 95-101): the head is `Node::new_uninit(MAX_LEVEL)`,
whose `alloc` loop initializes all `MAX_LEVEL` tower slots to `None` and whose
key/value bytes stay uninitialized (modelled by `default`; they are never
read).  `size = 0`, `level = 1`. -/
def SkipList.new : SkipList K V :=
  { nodes := [{ key := default, val := default, tower := List.replicate MAX_LEVEL none }],
    size := 0,
    level := 1 }

/-- The inner `while let` loop of `find_gt_or_eq_node` (lines 175-181) at a
fixed level `i`: advance `x` along `tower[i]` while the next key is `< target`.
Out-of-range arena or tower reads, and fuel exhaustion, give `none`. -/
def advance (nodes : List (Node K V)) (target : K) (i : Nat) : Nat → Nat → Option Nat
  | 0, _ => none
  | fuel + 1, x => do
    let xn ← nodes[x]?
    let lnk ← xn.tower[i]?
    match lnk with
    | none => some x
    | some nxt => do
      let nn ← nodes[nxt]?
      if nn.key < target then advance nodes target i fuel nxt else some x

/-- The outer `for i in (0..self.level).rev()` loop of `find_gt_or_eq_node`
(lines 174-183).  The first argument of the recursion is the number of levels
still to process: with value `i + 1` it runs the body for level index `i` and
continues downward from the pointer where the level-`i` walk stopped, storing
that pointer in `upd` (the Rust `update[i] = x` on a `[_; MAX_LEVEL]` array;
in every reachable state `i < MAX_LEVEL`, where `List.set` performs the same
write). -/
def findLevels (nodes : List (Node K V)) (target : K) :
    Nat → Nat → List (Option Nat) → Option (Nat × List (Option Nat))
  | 0, x, upd => some (x, upd)
  | i + 1, x, upd => do
    let x' ← advance nodes target i (nodes.length + 1) x
    findLevels nodes target i x' (upd.set i (some x'))

/-- `SkipList::find_gt_or_eq_node` (lines 168-186): walk down from the head at
the current maximum level, then return `x.tower[0]` together with the filled
`update` array. -/
def SkipList.find_gt_or_eq_node (sl : SkipList K V) (target : K) :
    Option (Option Nat × List (Option Nat)) := do
  let p ← findLevels sl.nodes target sl.level 0 (List.replicate MAX_LEVEL none)
  let xn ← sl.nodes[p.1]?
  let res ← xn.tower[0]?
  some (res, p.2)

/-- `SkipList::get` (lines 150-162): if the candidate node exists and its key
equals the target, return its value, else absent.  The outer `Option` layer is
the failure monad of the embedding; the inner `Option V` is the Rust return
value. -/
def SkipList.get (sl : SkipList K V) (target : K) : Option (Option V) := do
  let p ← sl.find_gt_or_eq_node target
  match p.1 with
  | some c => do
    let cn ← sl.nodes[c]?
    if cn.key = target then some (some cn.val) else some none
  | none => some none

/-- `SkipList::get_mut` (lines 136-148): identical lookup to `get`; the
returned mutable reference is modelled by the value it dereferences to. -/
def SkipList.get_mut (sl : SkipList K V) (target : K) : Option (Option V) := do
  let p ← sl.find_gt_or_eq_node target
  match p.1 with
  | some c => do
    let cn ← sl.nodes[c]?
    if cn.key = target then some (some cn.val) else some none
  | none => some none

/-- `SkipList::len` (lines 164-166). -/
def SkipList.len (sl : SkipList K V) : Nat := sl.size

/-- Loop body of `rand_lvl` (lines 80-86): the first argument is a fuel that
never runs out (the loop stops at `MAX_LEVEL`, and the fuel below starts at
`MAX_LEVEL` with `level = 1`); `coins idx` is the `idx`-th `random::<usize>()`
draw. -/
def rand_lvl_go (coins : Nat → Nat) : Nat → Nat → Nat → Nat
  | 0, level, _ => level
  | fuel + 1, level, idx =>
    if level < MAX_LEVEL ∧ coins idx % 2 = 0 then rand_lvl_go coins fuel (level + 1) (idx + 1)
    else level

/-- `rand_lvl` (lines 80-86) applied to an explicit stream of random draws. -/
def rand_lvl (coins : Nat → Nat) : Nat := rand_lvl_go coins MAX_LEVEL 1 0

/-- Unchecked tower write (`Tower::index_mut`, lines 23-27): writing past the
allocated height is undefined behaviour, modelled as failure. -/
def towerSet (t : List (Option Nat)) (i : Nat) (v : Option Nat) : Option (List (Option Nat)) :=
  if i < t.length then some (t.set i v) else none

/-- Lines 117-121: `update[i] = Some(self.head)` for `i` in
`self.level..level`; `extendUpdate upd start c` performs those writes for the
`c` indices `start, start + 1, ..., start + c - 1` (head = index 0). -/
def extendUpdate (upd : List (Option Nat)) (start : Nat) : Nat → List (Option Nat)
  | 0 => upd
  | c + 1 => (extendUpdate upd start c).set (start + c) (some 0)

/-- The splice loop of `insert` (lines 126-131).  With counter `i + 1` it
first performs the iterations for levels `0..i`, then for level `i`:
`x.tower[i] = update[i].tower[i]` followed by `update[i].tower[i] = x`.
`update[i].unwrap()` on `None`, and unchecked tower writes past a node's
height, fail. -/
def spliceLoop (nodes : List (Node K V)) (upd : List (Option Nat)) (x : Nat) :
    Nat → Option (List (Node K V))
  | 0 => some nodes
  | i + 1 => do
    let ns ← spliceLoop nodes upd x i
    let uo ← upd[i]?
    let u ← uo
    let un ← ns[u]?
    let lnk ← un.tower[i]?
    let xn ← ns[x]?
    let xt ← towerSet xn.tower i lnk
    let ns2 := ns.set x { xn with tower := xt }
    let un2 ← ns2[u]?
    let ut ← towerSet un2.tower i (some x)
    some (ns2.set u { un2 with tower := ut })

/-- Lines 116-133 of `insert`, reached when no node with an equal key exists:
possibly extend `update` with the head and raise the level, allocate the new
node (`Node::new(key, val, lvl)`: fresh arena index, tower of `lvl` empty
slots), splice, and increment `size`.  `lvl` is the height `rand_lvl()` drew. -/
def insertNew (sl : SkipList K V) (key : K) (val : V) (lvl : Nat)
    (upd : List (Option Nat)) : Option (SkipList K V) := do
  let upd2 := if sl.level < lvl then extendUpdate upd sl.level (lvl - sl.level) else upd
  let level2 := if sl.level < lvl then lvl else sl.level
  let ns ← spliceLoop (sl.nodes ++ [{ key := key, val := val, tower := List.replicate lvl none }])
      upd2 sl.nodes.length lvl
  some { nodes := ns, size := sl.size + 1, level := level2 }

/-- `SkipList::insert` (lines 103-134) with the height drawn by `rand_lvl`
passed as the argument `lvl`: run the traversal; if the candidate node's key
equals the target, overwrite its value in place and return; otherwise insert a
fresh node of height `lvl`. -/
def SkipList.insertH (sl : SkipList K V) (key : K) (val : V) (lvl : Nat) :
    Option (SkipList K V) := do
  let p ← sl.find_gt_or_eq_node key
  match p.1 with
  | some c => do
    let cn ← sl.nodes[c]?
    if cn.key = key then
      some { sl with nodes := sl.nodes.set c { cn with val := val } }
    else insertNew sl key val lvl p.2
  | none => insertNew sl key val lvl p.2

/-- `SkipList::insert` (lines 103-134): the height is drawn by `rand_lvl` from
the given coin stream. -/
def SkipList.insert (sl : SkipList K V) (key : K) (val : V) (coins : Nat → Nat) :
    Option (SkipList K V) :=
  sl.insertH key val (rand_lvl coins)

/-- The chain of arena indices reached from pointer `x` by repeatedly
following `tower[i]` (the traversal pattern of `Drop::drop`, lines 189-201,
and the per-level sub-chains of the structure). -/
def chainFrom (nodes : List (Node K V)) (i : Nat) : Nat → Option Nat → Option (List Nat)
  | 0, _ => none
  | _fuel + 1, none => some []
  | fuel + 1, some j => do
    let nd ← nodes[j]?
    let t ← nd.tower[i]?
    let rest ← chainFrom nodes i fuel t
    some (j :: rest)

/-- The sub-chain of real nodes reachable from the head along level-`i`
forward links. -/
def levelChain (sl : SkipList K V) (i : Nat) : Option (List Nat) := do
  let hd ← sl.nodes[0]?
  let t ← hd.tower[i]?
  chainFrom sl.nodes i (sl.nodes.length + 1) t

/-- `Drop::drop` (lines 189-201): walk the level-0 chain starting from the
head's level-0 successor, then release the head; the result is the
deallocation order (arena indices). -/
def dropOrder (sl : SkipList K V) : Option (List Nat) := do
  let hd ← sl.nodes[0]?
  let t ← hd.tower[0]?
  let l ← chainFrom sl.nodes 0 (sl.nodes.length + 1) t
  some (l ++ [0])

/-! ### Byte-level allocation model of `Node::alloc` (64-bit target)

`Node<K, V>` is `#[repr(C)] { key: K, val: V, layout: Layout, tower: [Option<NonNull<_>>; 0] }`.
`mem::size_of::<Layout>() = 16`, `mem::size_of::<Option<NonNull<_>>>() = 8`. -/

/-- `usize::MAX + 1` on the 64-bit target. -/
def USIZE : Nat := 2 ^ 64

/-- `isize::MAX` on the 64-bit target; `Layout::from_size_align(size, align)`
succeeds exactly when `size` does not exceed `isize::MAX - (align - 1)`. -/
def ISIZE_MAX : Nat := 2 ^ 63 - 1

/-- Outcome of the allocation path of `insert` for a fresh node. -/
inductive AllocStep where
  | layoutError
  | allocFailedAbort
  | proceeds (size : Nat)
deriving DecidableEq

/-- The size computed by `Node::alloc` (lines 39-42):
`size_of::<K>() + size_of::<V>() + size_of::<Layout>() + height * size_of::<Option<NonNull<_>>>()`,
with the implicit `usize` wrap-around of the release-mode `+` and `*`. -/
def allocSizeWrapped (sK sV height : Nat) : Nat :=
  (sK + sV + 16 + height * 8) % USIZE

/-- The allocation path for one fresh node of the given height (lines 38-57
together with the `x.unwrap()` calls on lines 128-129): `layoutError` is the
fatal error raised when `Layout::from_size_align` rejects the size (line 55);
`allocFailedAbort` is the fatal `unwrap` error in `insert` after `alloc`
returned a null pointer and `Node::new` returned `None`; `proceeds size`
means a node backed by `size` bytes is linked into the list.
`allocSucceeds` tells whether the global allocator returns memory. -/
def nodeAllocModel (sK sV height : Nat) (allocSucceeds : Bool) : AllocStep :=
  let size := allocSizeWrapped sK sV height
  if size + 15 ≤ ISIZE_MAX then
    if allocSucceeds then AllocStep.proceeds size else AllocStep.allocFailedAbort
  else AllocStep.layoutError

/-! ### Spec-level view of the arena -/

/-- Placeholder node backing the total index access used in statements; an
in-range access never returns it. -/
def dummyNode : Node K V := { key := default, val := default, tower := [] }

/-- Total arena access for statements and invariants. -/
def nodeAt (nodes : List (Node K V)) (j : Nat) : Node K V := nodes.getD j dummyNode

/-- Key of the node at index `j`. -/
def keyAt (nodes : List (Node K V)) (j : Nat) : K := (nodeAt nodes j).key

/-- Height (tower length) of the node at index `j`. -/
def heightAt (nodes : List (Node K V)) (j : Nat) : Nat := (nodeAt nodes j).tower.length

/-- Level-`i` forward pointer of the node at index `j`. -/
def towAt (nodes : List (Node K V)) (j i : Nat) : Option Nat := (nodeAt nodes j).tower.getD i none

/-- `j` indexes a real (non-sentinel) node of the arena. -/
def RealIdx (nodes : List (Node K V)) (j : Nat) : Prop := 1 ≤ j ∧ j < nodes.length

instance (nodes : List (Node K V)) (j : Nat) : Decidable (RealIdx nodes j) :=
  inferInstanceAs (Decidable (1 ≤ j ∧ j < nodes.length))

/-- The key of node `k` lies strictly above the lower bound `b` (`none` is the
head-sentinel bound, which lies below every key). -/
def AboveK (nodes : List (Node K V)) (b : Option K) (k : Nat) : Prop :=
  match b with
  | none => True
  | some kb => kb < keyAt nodes k

instance (nodes : List (Node K V)) (b : Option K) (k : Nat) : Decidable (AboveK nodes b k) :=
  match b with
  | none => isTrue trivial
  | some kb => inferInstanceAs (Decidable (kb < keyAt nodes k))

/-- `k` is a real node that participates at level `i`. -/
def LvlNode (nodes : List (Node K V)) (i k : Nat) : Prop :=
  RealIdx nodes k ∧ i < heightAt nodes k

instance (nodes : List (Node K V)) (i k : Nat) : Decidable (LvlNode nodes i k) :=
  inferInstanceAs (Decidable (RealIdx nodes k ∧ i < heightAt nodes k))

/-- `k` is a real node at level `i` whose key lies above the bound `b`. -/
def SuccK (nodes : List (Node K V)) (b : Option K) (i k : Nat) : Prop :=
  LvlNode nodes i k ∧ AboveK nodes b k

instance (nodes : List (Node K V)) (b : Option K) (i k : Nat) : Decidable (SuccK nodes b i k) :=
  inferInstanceAs (Decidable (LvlNode nodes i k ∧ AboveK nodes b k))

/-- The key bound contributed by node `j`: the head bounds nothing, a real
node bounds by its key. -/
def boundOf (nodes : List (Node K V)) (j : Nat) : Option K :=
  if j = 0 then none else some (keyAt nodes j)

/-- `o` is the level-`i` node of least key above the bound `b` (`none` when no
node lies at level `i` above `b`). -/
def IsLeastSucc (nodes : List (Node K V)) (b : Option K) (i : Nat) : Option Nat → Prop
  | none => ∀ k, ¬ SuccK nodes b i k
  | some c => SuccK nodes b i c ∧ ∀ k, SuccK nodes b i k → keyAt nodes c ≤ keyAt nodes k

/-- `p` is the last node whose key is `< target` at level `i`: either the head
or a real level-`i` node below `target`, such that every level-`i` node above
`p` has key `≥ target`. -/
def IsPredAt (nodes : List (Node K V)) (target : K) (i p : Nat) : Prop :=
  (p = 0 ∨ (RealIdx nodes p ∧ i < heightAt nodes p ∧ keyAt nodes p < target)) ∧
  ∀ k, LvlNode nodes i k → AboveK nodes (boundOf nodes p) k → target ≤ keyAt nodes k

/-- `c` is the first real node whose key is `≥ target`, or `none` when every
real node has key `< target`. -/
def IsCandidate (nodes : List (Node K V)) (target : K) : Option Nat → Prop
  | none => ∀ k, RealIdx nodes k → keyAt nodes k < target
  | some c => RealIdx nodes c ∧ target ≤ keyAt nodes c ∧
      ∀ k, RealIdx nodes k → target ≤ keyAt nodes k → keyAt nodes c ≤ keyAt nodes k

/-- Number of level-`i` nodes above the bound `b`; the termination measure of
the traversal loops. -/
def countAbove (nodes : List (Node K V)) (b : Option K) (i : Nat) : Nat :=
  ((Finset.range nodes.length).filter fun k => SuccK nodes b i k).card

/-- The structural invariant of every reachable skip list.  `canon` is the
canonical-form property: every in-range tower slot holds exactly the next
node, in key order, that participates at that level. -/
structure Inv (sl : SkipList K V) : Prop where
  ne : sl.nodes ≠ []
  headH : heightAt sl.nodes 0 = MAX_LEVEL
  lvl1 : 1 ≤ sl.level
  lvlM : sl.level ≤ MAX_LEVEL
  hLB : ∀ j, RealIdx sl.nodes j → 1 ≤ heightAt sl.nodes j
  hUB : ∀ j, RealIdx sl.nodes j → heightAt sl.nodes j ≤ sl.level
  szEq : sl.size = sl.nodes.length - 1
  inj : ∀ j k, RealIdx sl.nodes j → RealIdx sl.nodes k →
      keyAt sl.nodes j = keyAt sl.nodes k → j = k
  canon : ∀ j i, j < sl.nodes.length → i < heightAt sl.nodes j →
      IsLeastSucc sl.nodes (boundOf sl.nodes j) i (towAt sl.nodes j i)

/-- The list associates value `v` to key `k` (through some real node). -/
def HasKV (sl : SkipList K V) (k : K) (v : V) : Prop :=
  ∃ j, RealIdx sl.nodes j ∧ keyAt sl.nodes j = k ∧ (nodeAt sl.nodes j).val = v

/-- Some real node carries key `k`. -/
def HasKey (sl : SkipList K V) (k : K) : Prop :=
  ∃ j, RealIdx sl.nodes j ∧ keyAt sl.nodes j = k

/-- Reference value of `k` after performing the inserts of `ops` in order
(last write wins), starting from the abstract map `m`. -/
def updFold (m : K → Option V) (ops : List (K × V)) (k : K) : Option V :=
  ops.foldl (fun acc p => if p.1 = k then some p.2 else acc) (m k)

/-- Reference lookup for `k` after the inserts of `ops` on an empty map. -/
def applyOps (ops : List (K × V)) (k : K) : Option V :=
  updFold (fun _ => none) ops k

/-- Run a sequence of inserts; the `j`-th insert draws its height from the
coin stream `coins j`. -/
def insertSeqR (coins : Nat → Nat → Nat) :
    SkipList K V → List (K × V) → Nat → Option (SkipList K V)
  | sl, [], _ => some sl
  | sl, (k, v) :: t, j => do
    let sl' ← sl.insertH k v (rand_lvl (coins j))
    insertSeqR coins sl' t (j + 1)

/-- Refinement relation: `sl` satisfies the structural invariant and its
key-value pairs are exactly those of the abstract map `m`. -/
def Models (sl : SkipList K V) (m : K → Option V) : Prop :=
  Inv sl ∧ ∀ k v, HasKV sl k v ↔ m k = some v

/-- The operations of the public interface that touch a key or the size. -/
inductive Op (K V : Type) where
  | ins (k : K) (v : V)
  | get (k : K)
  | getMut (k : K)
  | len

/-- Observations produced by `get`, `get_mut` and `len`. -/
inductive Obs (V : Type) where
  | found (r : Option V)
  | count (n : Nat)

/-- Run a program against the list, recording every observable result; the
`j`-th insert draws its height from the coin stream `coins j`. -/
def runOps (coins : Nat → Nat → Nat) :
    SkipList K V → List (Op K V) → Nat → Option (List (Obs V))
  | _, [], _ => some []
  | sl, Op.ins k v :: t, j => do
    let sl' ← sl.insertH k v (rand_lvl (coins j))
    runOps coins sl' t (j + 1)
  | sl, Op.get k :: t, j => do
    let r ← sl.get k
    let rest ← runOps coins sl t j
    some (Obs.found r :: rest)
  | sl, Op.getMut k :: t, j => do
    let r ← sl.get_mut k
    let rest ← runOps coins sl t j
    some (Obs.found r :: rest)
  | sl, Op.len :: t, j => do
    let rest ← runOps coins sl t j
    some (Obs.count sl.len :: rest)

/-- Round `n` up to the next multiple of the alignment `a`. -/
def alignUp (n a : Nat) : Nat := (n + a - 1) / a * a

/-- The size `Node::alloc` requests (no wrap-around: the exact mathematical
value of line 39-42). -/
def allocSize (sK sV height : Nat) : Nat := sK + sV + 16 + height * 8

/-- The number of bytes the declared `#[repr(C)]` layout of `Node<K, V>`
actually needs so that the key, the value, the `layout` field and `height`
tower slots can be written: fields are laid out in order at their alignments
(`sK`, `sV` the sizes and `aV` the alignment of `K`'s and `V`'s fields;
`Layout` and the tower slots have size 16 / 8 and alignment 8). -/
def nodeNeededSize (sK sV aV height : Nat) : Nat :=
  let offVal := alignUp sK aV
  let offLayout := alignUp (offVal + sV) 8
  offLayout + 16 + height * 8

/-! ### Basic arena lemmas -/

theorem nodeAt_getElem {nodes : List (Node K V)} {j : Nat} (h : j < nodes.length) :
    nodes[j]? = some (nodeAt nodes j) := by
  rw [nodeAt, List.getD_eq_getElem?_getD, List.getElem?_eq_getElem h]
  rfl

theorem towAt_getElem {nodes : List (Node K V)} {j i : Nat} (h : i < heightAt nodes j) :
    (nodeAt nodes j).tower[i]? = some (towAt nodes j i) := by
  rw [towAt, List.getD_eq_getElem?_getD, List.getElem?_eq_getElem h]
  rfl

theorem getD_set_self {t : List (Option Nat)} {i : Nat} {v : Option Nat} (h : i < t.length) :
    (t.set i v).getD i none = v := by
  rw [List.getD_eq_getElem?_getD, List.getElem?_set]
  simp [h]

theorem getD_set_ne {t : List (Option Nat)} (i i' : Nat) {v : Option Nat} (h : i ≠ i') :
    (t.set i v).getD i' none = t.getD i' none := by
  rw [List.getD_eq_getElem?_getD, List.getD_eq_getElem?_getD, List.getElem?_set]
  simp [h]

theorem nodeAt_set_self {nodes : List (Node K V)} {j : Nat} (nd : Node K V)
    (h : j < nodes.length) : nodeAt (nodes.set j nd) j = nd := by
  rw [nodeAt, List.getD_eq_getElem?_getD, List.getElem?_set]
  simp [h]

theorem nodeAt_set_ne {nodes : List (Node K V)} {j j' : Nat} (nd : Node K V)
    (h : j ≠ j') : nodeAt (nodes.set j nd) j' = nodeAt nodes j' := by
  rw [nodeAt, nodeAt, List.getD_eq_getElem?_getD, List.getD_eq_getElem?_getD,
    List.getElem?_set]
  simp [h]

theorem nodeAt_append_lt {nodes : List (Node K V)} (nd : Node K V) {j : Nat}
    (h : j < nodes.length) : nodeAt (nodes ++ [nd]) j = nodeAt nodes j := by
  rw [nodeAt, nodeAt, List.getD_eq_getElem?_getD, List.getD_eq_getElem?_getD,
    List.getElem?_append_left h]

theorem nodeAt_append_len (nodes : List (Node K V)) (nd : Node K V) :
    nodeAt (nodes ++ [nd]) nodes.length = nd := by
  rw [nodeAt, List.getD_eq_getElem?_getD, List.getElem?_concat_length]
  rfl

theorem towAt_replicate_none {nodes : List (Node K V)} {j : Nat} (i : Nat)
    (h : (nodeAt nodes j).tower = List.replicate (heightAt nodes j) none) :
    towAt nodes j i = none := by
  rw [towAt, h, List.getD_eq_getElem?_getD, List.getElem?_replicate]
  by_cases hi : i < heightAt nodes j <;> simp [hi]

/-! ### rand_lvl bounds -/

theorem rand_lvl_go_le (coins : Nat → Nat) :
    ∀ fuel level idx, level ≤ rand_lvl_go coins fuel level idx ∧
      rand_lvl_go coins fuel level idx ≤ max level MAX_LEVEL := by
  intro fuel
  induction fuel with
  | zero =>
    intro level idx
    exact ⟨le_refl _, le_max_left _ _⟩
  | succ n ih =>
    intro level idx
    rw [rand_lvl_go]
    by_cases h : level < MAX_LEVEL ∧ coins idx % 2 = 0
    · rw [if_pos h]
      obtain ⟨h1, h2⟩ := ih (level + 1) (idx + 1)
      refine ⟨le_trans (Nat.le_succ level) h1, le_trans h2 (max_le ?_ (le_max_right _ _))⟩
      exact le_trans h.1 (le_max_right _ _)
    · rw [if_neg h]
      exact ⟨le_refl _, le_max_left _ _⟩

theorem rand_lvl_pos (coins : Nat → Nat) : 1 ≤ rand_lvl coins :=
  (rand_lvl_go_le coins MAX_LEVEL 1 0).1

theorem rand_lvl_le (coins : Nat → Nat) : rand_lvl coins ≤ MAX_LEVEL := by
  have h := (rand_lvl_go_le coins MAX_LEVEL 1 0).2
  rw [rand_lvl]
  refine le_trans h ?_
  rw [max_eq_right]
  decide

/-! ### The termination measure of the traversal loops -/

theorem countAbove_le (nodes : List (Node K V)) (b : Option K) (i : Nat) :
    countAbove nodes b i ≤ nodes.length := by
  rw [countAbove]
  refine le_trans (Finset.card_filter_le _ _) ?_
  rw [Finset.card_range]

theorem countAbove_lt_of_succ {nodes : List (Node K V)} {b : Option K} {i nxt : Nat}
    (h : SuccK nodes b i nxt) :
    countAbove nodes (some (keyAt nodes nxt)) i < countAbove nodes b i := by
  rw [countAbove, countAbove]
  apply Finset.card_lt_card
  have hsub : ((Finset.range nodes.length).filter fun k => SuccK nodes (some (keyAt nodes nxt)) i k)
      ⊆ (Finset.range nodes.length).filter fun k => SuccK nodes b i k := by
    intro k hk
    rw [Finset.mem_filter] at hk ⊢
    refine ⟨hk.1, hk.2.1, ?_⟩
    rcases b with _ | kb
    · trivial
    · exact lt_trans h.2 hk.2.2
  rw [Finset.ssubset_iff_of_subset hsub]
  refine ⟨nxt, ?_, ?_⟩
  · rw [Finset.mem_filter, Finset.mem_range]
    exact ⟨h.1.1.2, h⟩
  · rw [Finset.mem_filter]
    intro hc
    exact absurd hc.2.2 (lt_irrefl _)

theorem boundOf_zero (nodes : List (Node K V)) : boundOf nodes 0 = none := rfl

theorem boundOf_ne {nodes : List (Node K V)} {x : Nat} (h : x ≠ 0) :
    boundOf nodes x = some (keyAt nodes x) := by
  rw [boundOf, if_neg h]

/-! ### Correctness of the traversal -/

theorem advance_spec {sl : SkipList K V} (hinv : Inv sl) (target : K) (i : Nat)
    (hi : i < MAX_LEVEL) :
    ∀ fuel x,
      (x = 0 ∨ (RealIdx sl.nodes x ∧ i < heightAt sl.nodes x ∧ keyAt sl.nodes x < target)) →
      countAbove sl.nodes (boundOf sl.nodes x) i < fuel →
      ∃ p, advance sl.nodes target i fuel x = some p ∧ IsPredAt sl.nodes target i p := by
  intro fuel
  induction fuel with
  | zero =>
    intro x _ hf
    exact absurd hf (Nat.not_lt_zero _)
  | succ n ih =>
    intro x hx hf
    have hne : 0 < sl.nodes.length := List.length_pos.mpr hinv.ne
    have hxlen : x < sl.nodes.length := by
      rcases hx with h0 | ⟨⟨_, hlt⟩, _, _⟩
      · rw [h0]; exact hne
      · exact hlt
    have hih : i < heightAt sl.nodes x := by
      rcases hx with h0 | ⟨_, hh, _⟩
      · rw [h0, hinv.headH]; exact hi
      · exact hh
    have hcanon := hinv.canon x i hxlen hih
    simp only [advance]
    rw [nodeAt_getElem hxlen]
    simp only [Option.bind_eq_bind, Option.some_bind]
    rw [towAt_getElem hih]
    simp only [Option.some_bind]
    cases htow : towAt sl.nodes x i with
    | none =>
      refine ⟨x, rfl, hx, ?_⟩
      intro k hk1 hk2
      rw [htow] at hcanon
      exact absurd (⟨hk1, hk2⟩ : SuccK sl.nodes (boundOf sl.nodes x) i k) (hcanon k)
    | some nxt =>
      rw [htow] at hcanon
      obtain ⟨hs, hmin⟩ := hcanon
      have hnl : nxt < sl.nodes.length := hs.1.1.2
      simp only []
      rw [nodeAt_getElem hnl]
      simp only [Option.bind_eq_bind, Option.some_bind]
      by_cases hlt : (nodeAt sl.nodes nxt).key < target
      · rw [if_pos hlt]
        have hnn : nxt ≠ 0 := by
          have := hs.1.1.1
          omega
        refine ih nxt (Or.inr ⟨hs.1.1, hs.1.2, hlt⟩) ?_
        rw [boundOf_ne hnn]
        exact Nat.lt_of_lt_of_le (countAbove_lt_of_succ hs) (Nat.lt_succ_iff.mp hf)
      · rw [if_neg hlt]
        refine ⟨x, rfl, hx, ?_⟩
        intro k hk1 hk2
        exact le_trans (not_lt.mp hlt) (hmin k ⟨hk1, hk2⟩)

theorem findLevels_spec {sl : SkipList K V} (hinv : Inv sl) (target : K) :
    ∀ i x upd, i ≤ sl.level →
      (x = 0 ∨ (RealIdx sl.nodes x ∧ i ≤ heightAt sl.nodes x ∧ keyAt sl.nodes x < target)) →
      upd.length = MAX_LEVEL →
      ∃ x' upd', findLevels sl.nodes target i x upd = some (x', upd') ∧
        upd'.length = MAX_LEVEL ∧
        (x' = x ∨ IsPredAt sl.nodes target 0 x') ∧
        (0 < i → IsPredAt sl.nodes target 0 x') ∧
        (∀ j, j < i → ∃ p, upd'[j]? = some (some p) ∧ IsPredAt sl.nodes target j p) ∧
        (∀ j, i ≤ j → upd'[j]? = upd[j]?) := by
  intro i
  induction i with
  | zero =>
    intro x upd _ _ hlen
    refine ⟨x, upd, rfl, hlen, Or.inl rfl, ?_, ?_, fun j _ => rfl⟩
    · intro h
      exact absurd h (lt_irrefl 0)
    · intro j hj
      exact absurd hj (Nat.not_lt_zero j)
  | succ m ih =>
    intro x upd hle hx hlen
    have him : m < MAX_LEVEL := lt_of_lt_of_le (Nat.lt_of_lt_of_le (Nat.lt_succ_self m) hle)
      hinv.lvlM
    have hpre : x = 0 ∨ (RealIdx sl.nodes x ∧ m < heightAt sl.nodes x ∧
        keyAt sl.nodes x < target) := by
      rcases hx with h0 | ⟨h1, h2, h3⟩
      · exact Or.inl h0
      · exact Or.inr ⟨h1, h2, h3⟩
    have hfuel : countAbove sl.nodes (boundOf sl.nodes x) m < sl.nodes.length + 1 :=
      Nat.lt_succ_of_le (countAbove_le _ _ _)
    obtain ⟨p, hadv, hpred⟩ := advance_spec hinv target m him (sl.nodes.length + 1) x hpre hfuel
    simp only [findLevels]
    rw [hadv]
    simp only [Option.bind_eq_bind, Option.some_bind]
    have hpre' : p = 0 ∨ (RealIdx sl.nodes p ∧ m ≤ heightAt sl.nodes p ∧
        keyAt sl.nodes p < target) := by
      rcases hpred.1 with h0 | ⟨h1, h2, h3⟩
      · exact Or.inl h0
      · exact Or.inr ⟨h1, le_of_lt h2, h3⟩
    have hlen' : (upd.set m (some p)).length = MAX_LEVEL := by
      rw [List.length_set]; exact hlen
    obtain ⟨x', upd', hrec, hlen'', hor, hpos, hbelow, habove⟩ :=
      ih p (upd.set m (some p)) (Nat.le_of_succ_le hle) hpre' hlen'
    have hx'0 : IsPredAt sl.nodes target 0 x' := by
      rcases Nat.eq_zero_or_pos m with hm | hm
      · subst hm
        rcases hor with rfl | h
        · exact hpred
        · exact h
      · exact hpos hm
    refine ⟨x', upd', hrec, hlen'', Or.inr hx'0, fun _ => hx'0, ?_, ?_⟩
    · intro j hj
      rcases Nat.lt_succ_iff_lt_or_eq.mp hj with hj' | rfl
      · exact hbelow j hj'
      · refine ⟨p, ?_, hpred⟩
        rw [habove j (le_refl j), List.getElem?_set]
        have : j < upd.length := by omega
        simp [this]
    · intro j hj
      rw [habove j (le_trans (Nat.le_succ m) hj), List.getElem?_set, if_neg]
      omega

theorem isPredAt_range {sl : SkipList K V} (hinv : Inv sl) {target : K} {i p : Nat}
    (hi : i < MAX_LEVEL) (hp : IsPredAt sl.nodes target i p) :
    p < sl.nodes.length ∧ i < heightAt sl.nodes p := by
  rcases hp.1 with h0 | ⟨⟨_, hlen⟩, hh, _⟩
  · subst h0
    refine ⟨List.length_pos.mpr hinv.ne, ?_⟩
    rw [hinv.headH]
    exact hi
  · exact ⟨hlen, hh⟩

theorem isCandidate_of_pred {sl : SkipList K V} (hinv : Inv sl) {target : K} {p : Nat}
    (hp : IsPredAt sl.nodes target 0 p) (hplen : p < sl.nodes.length)
    (hph : 0 < heightAt sl.nodes p) :
    IsCandidate sl.nodes target (towAt sl.nodes p 0) := by
  have hcanon := hinv.canon p 0 hplen hph
  have hbelow : ∀ k, RealIdx sl.nodes k → ¬ AboveK sl.nodes (boundOf sl.nodes p) k →
      keyAt sl.nodes k < target := by
    intro k hk hab
    rcases hp.1 with h0 | ⟨hr, _, hkp⟩
    · subst h0
      exact absurd trivial hab
    · have hp0 : p ≠ 0 := by
        have := hr.1
        omega
      rw [boundOf_ne hp0] at hab
      exact lt_of_le_of_lt (not_lt.mp hab) hkp
  have habove : ∀ k, RealIdx sl.nodes k → target ≤ keyAt sl.nodes k →
      AboveK sl.nodes (boundOf sl.nodes p) k := by
    intro k hk hkt
    rcases hp.1 with h0 | ⟨hr, _, hkp⟩
    · subst h0
      trivial
    · have hp0 : p ≠ 0 := by
        have := hr.1
        omega
      rw [boundOf_ne hp0]
      exact lt_of_lt_of_le hkp hkt
  cases hc : towAt sl.nodes p 0 with
  | none =>
    rw [hc] at hcanon
    intro k hk
    by_cases hab : AboveK sl.nodes (boundOf sl.nodes p) k
    · exact absurd (⟨⟨hk, hinv.hLB k hk⟩, hab⟩ :
        SuccK sl.nodes (boundOf sl.nodes p) 0 k) (hcanon k)
    · exact hbelow k hk hab
  | some c =>
    rw [hc] at hcanon
    obtain ⟨hs, hmin⟩ := hcanon
    refine ⟨hs.1.1, hp.2 c hs.1 hs.2, ?_⟩
    intro k hk hkt
    exact hmin k ⟨⟨hk, hinv.hLB k hk⟩, habove k hk hkt⟩

theorem find_spec {sl : SkipList K V} (hinv : Inv sl) (target : K) :
    ∃ cand upd, sl.find_gt_or_eq_node target = some (cand, upd) ∧
      IsCandidate sl.nodes target cand ∧
      upd.length = MAX_LEVEL ∧
      (∀ i, i < sl.level → ∃ p, upd[i]? = some (some p) ∧ IsPredAt sl.nodes target i p) ∧
      (∀ i, sl.level ≤ i → i < MAX_LEVEL → upd[i]? = some none) := by
  obtain ⟨x', upd', hrun, hlen, _, hpos, hbelow, habove⟩ :=
    findLevels_spec hinv target sl.level 0 (List.replicate MAX_LEVEL none) (le_refl _)
      (Or.inl rfl) (by rw [List.length_replicate])
  have hx'0 : IsPredAt sl.nodes target 0 x' := hpos hinv.lvl1
  have hM : (0 : Nat) < MAX_LEVEL := by decide
  obtain ⟨hx'len, hx'h⟩ := isPredAt_range hinv hM hx'0
  refine ⟨towAt sl.nodes x' 0, upd', ?_, isCandidate_of_pred hinv hx'0 hx'len hx'h, hlen,
    hbelow, ?_⟩
  · simp only [SkipList.find_gt_or_eq_node]
    rw [hrun]
    simp only [Option.bind_eq_bind, Option.some_bind]
    rw [nodeAt_getElem hx'len]
    simp only [Option.some_bind]
    rw [towAt_getElem hx'h]
    simp only [Option.some_bind]
  · intro i hi hiM
    rw [habove i hi, List.getElem?_replicate, if_pos hiM]

/-! ### Lookup correctness -/

theorem get_mut_eq_get (sl : SkipList K V) (target : K) : sl.get_mut target = sl.get target :=
  rfl

theorem get_eq_of_hasKV {sl : SkipList K V} (hinv : Inv sl) {k : K} {v : V}
    (h : HasKV sl k v) : sl.get k = some (some v) := by
  obtain ⟨j, hj, hjk, hjv⟩ := h
  obtain ⟨cand, upd, heq, hcand, _, _, _⟩ := find_spec hinv k
  simp only [SkipList.get]
  rw [heq]
  simp only [Option.bind_eq_bind, Option.some_bind]
  cases cand with
  | none =>
    have := hcand j hj
    rw [hjk] at this
    exact absurd this (lt_irrefl k)
  | some c =>
    obtain ⟨hcr, hck, hmin⟩ := hcand
    have h1 : keyAt sl.nodes c ≤ k := by
      have h2 := hmin j hj (by rw [hjk])
      rw [hjk] at h2
      exact h2
    have hkc : keyAt sl.nodes c = k := le_antisymm h1 hck
    have hceq : c = j := hinv.inj c j hcr hj (by rw [hkc, hjk])
    simp only []
    rw [nodeAt_getElem hcr.2]
    simp only [Option.bind_eq_bind, Option.some_bind]
    have hkc' : (nodeAt sl.nodes c).key = k := hkc
    rw [if_pos hkc', hceq, hjv]

theorem get_eq_none {sl : SkipList K V} (hinv : Inv sl) {k : K}
    (h : ¬ HasKey sl k) : sl.get k = some none := by
  obtain ⟨cand, upd, heq, hcand, _, _, _⟩ := find_spec hinv k
  simp only [SkipList.get]
  rw [heq]
  simp only [Option.bind_eq_bind, Option.some_bind]
  cases cand with
  | none => rfl
  | some c =>
    obtain ⟨hcr, _, _⟩ := hcand
    simp only []
    rw [nodeAt_getElem hcr.2]
    simp only [Option.bind_eq_bind, Option.some_bind]
    rw [if_neg]
    intro hc
    exact h ⟨c, hcr, hc⟩

/-! ### The empty list -/

theorem not_realIdx_new (j : Nat) : ¬ RealIdx (SkipList.new : SkipList K V).nodes j := by
  intro h
  obtain ⟨h1, h2⟩ := h
  simp only [SkipList.new, List.length_singleton] at h2
  omega

theorem inv_new : Inv (SkipList.new : SkipList K V) := by
  refine ⟨?_, ?_, le_refl 1, by show (1 : Nat) ≤ MAX_LEVEL; decide, ?_, ?_, rfl, ?_, ?_⟩
  · simp [SkipList.new]
  · rfl
  · intro j hj
    exact absurd hj (not_realIdx_new j)
  · intro j hj
    exact absurd hj (not_realIdx_new j)
  · intro j k hj
    exact absurd hj (not_realIdx_new j)
  · intro j i hjlen hih
    have hj : j = 0 := by
      simp only [SkipList.new, List.length_singleton] at hjlen
      omega
    subst hj
    have ht : towAt (SkipList.new : SkipList K V).nodes 0 i = none := by
      refine towAt_replicate_none i ?_
      rfl
    rw [ht]
    intro k hk
    exact absurd hk.1.1 (not_realIdx_new k)

theorem not_hasKey_new (k : K) : ¬ HasKey (SkipList.new : SkipList K V) k := by
  rintro ⟨j, hj, _⟩
  exact absurd hj (not_realIdx_new j)

/-! ### Insert: the upsert path -/

theorem insertH_present {sl : SkipList K V} (hinv : Inv sl) {k : K} (v : V) (lvl : Nat)
    {j : Nat} (hj : RealIdx sl.nodes j) (hjk : keyAt sl.nodes j = k) :
    sl.insertH k v lvl =
      some { sl with nodes := sl.nodes.set j { nodeAt sl.nodes j with val := v } } := by
  obtain ⟨cand, upd, heq, hcand, _, _, _⟩ := find_spec hinv k
  simp only [SkipList.insertH]
  rw [heq]
  simp only [Option.bind_eq_bind, Option.some_bind]
  cases cand with
  | none =>
    have := hcand j hj
    rw [hjk] at this
    exact absurd this (lt_irrefl k)
  | some c =>
    obtain ⟨hcr, hck, hmin⟩ := hcand
    have h1 : keyAt sl.nodes c ≤ k := by
      have h2 := hmin j hj (by rw [hjk])
      rw [hjk] at h2
      exact h2
    have hkc : keyAt sl.nodes c = k := le_antisymm h1 hck
    have hceq : c = j := hinv.inj c j hcr hj (by rw [hkc, hjk])
    simp only []
    rw [nodeAt_getElem hcr.2]
    simp only [Option.bind_eq_bind, Option.some_bind]
    have hkc' : (nodeAt sl.nodes c).key = k := hkc
    rw [if_pos hkc', hceq]

theorem setVal_shape {nodes : List (Node K V)} {j : Nat} (hj : j < nodes.length) (v : V) :
    (∀ j', keyAt (nodes.set j { nodeAt nodes j with val := v }) j' = keyAt nodes j') ∧
    (∀ j', heightAt (nodes.set j { nodeAt nodes j with val := v }) j' = heightAt nodes j') ∧
    (∀ j' i, towAt (nodes.set j { nodeAt nodes j with val := v }) j' i = towAt nodes j' i) := by
  refine ⟨?_, ?_, ?_⟩
  · intro j'
    by_cases h : j = j'
    · subst h
      rw [keyAt, nodeAt_set_self _ hj]
      rfl
    · rw [keyAt, nodeAt_set_ne _ h, keyAt]
  · intro j'
    by_cases h : j = j'
    · subst h
      rw [heightAt, nodeAt_set_self _ hj]
      rfl
    · rw [heightAt, nodeAt_set_ne _ h, heightAt]
  · intro j' i
    by_cases h : j = j'
    · subst h
      rw [towAt, nodeAt_set_self _ hj]
      rfl
    · rw [towAt, nodeAt_set_ne _ h, towAt]

theorem aboveK_congr {nodes nodes' : List (Node K V)}
    (hkey : ∀ j, keyAt nodes' j = keyAt nodes j) (b : Option K) (k : Nat) :
    AboveK nodes' b k ↔ AboveK nodes b k := by
  cases b with
  | none => exact Iff.rfl
  | some kb =>
    show kb < keyAt nodes' k ↔ kb < keyAt nodes k
    rw [hkey k]

theorem inv_of_same_shape {sl sl' : SkipList K V}
    (hlen : sl'.nodes.length = sl.nodes.length)
    (hkey : ∀ j, keyAt sl'.nodes j = keyAt sl.nodes j)
    (hh : ∀ j, heightAt sl'.nodes j = heightAt sl.nodes j)
    (ht : ∀ j i, towAt sl'.nodes j i = towAt sl.nodes j i)
    (hsz : sl'.size = sl.size) (hlvl : sl'.level = sl.level)
    (hinv : Inv sl) : Inv sl' := by
  have hreal : ∀ j, RealIdx sl'.nodes j ↔ RealIdx sl.nodes j := by
    intro j
    unfold RealIdx
    rw [hlen]
  have hsucc : ∀ b i k, SuccK sl'.nodes b i k ↔ SuccK sl.nodes b i k := by
    intro b i k
    unfold SuccK LvlNode RealIdx
    rw [hlen, hh k]
    exact and_congr Iff.rfl (aboveK_congr hkey b k)
  have hbound : ∀ j, boundOf sl'.nodes j = boundOf sl.nodes j := by
    intro j
    unfold boundOf
    rw [hkey j]
  have hleast : ∀ b i o, IsLeastSucc sl.nodes b i o → IsLeastSucc sl'.nodes b i o := by
    intro b i o hls
    cases o with
    | none =>
      intro kk hs
      exact hls kk ((hsucc b i kk).mp hs)
    | some c =>
      refine ⟨(hsucc b i c).mpr hls.1, ?_⟩
      intro kk hs
      rw [hkey c, hkey kk]
      exact hls.2 kk ((hsucc b i kk).mp hs)
  refine ⟨?_, ?_, ?_, ?_, ?_, ?_, ?_, ?_, ?_⟩
  · intro hnil
    apply hinv.ne
    rw [← List.length_eq_zero]
    rw [hnil, List.length_nil] at hlen
    omega
  · rw [hh 0, hinv.headH]
  · rw [hlvl]; exact hinv.lvl1
  · rw [hlvl]; exact hinv.lvlM
  · intro j hj
    rw [hh j]
    exact hinv.hLB j ((hreal j).mp hj)
  · intro j hj
    rw [hh j, hlvl]
    exact hinv.hUB j ((hreal j).mp hj)
  · rw [hsz, hlen]
    exact hinv.szEq
  · intro j k hj hk hkk
    rw [hkey j, hkey k] at hkk
    exact hinv.inj j k ((hreal j).mp hj) ((hreal k).mp hk) hkk
  · intro j i hjl hih
    rw [ht j i, hbound j]
    refine hleast _ i _ (hinv.canon j i ?_ ?_)
    · rw [← hlen]; exact hjl
    · rw [← hh j]; exact hih

theorem insertH_present_spec {sl : SkipList K V} (hinv : Inv sl) {k : K} (v : V) (lvl : Nat)
    (hk : HasKey sl k) :
    ∃ sl', sl.insertH k v lvl = some sl' ∧ Inv sl' ∧
      sl'.size = sl.size ∧ sl'.level = sl.level ∧
      sl'.nodes.length = sl.nodes.length ∧
      (∀ j, keyAt sl'.nodes j = keyAt sl.nodes j) ∧
      (∀ j, heightAt sl'.nodes j = heightAt sl.nodes j) ∧
      (∀ j i, towAt sl'.nodes j i = towAt sl.nodes j i) ∧
      (∀ v', HasKV sl' k v' ↔ v' = v) ∧
      (∀ k', k' ≠ k → ∀ v', HasKV sl' k' v' ↔ HasKV sl k' v') ∧
      sl'.nodes.map (fun x => x.tower) = sl.nodes.map (fun x => x.tower) ∧
      sl'.nodes.map (fun x => x.key) = sl.nodes.map (fun x => x.key) := by
  obtain ⟨j, hj, hjk⟩ := hk
  have heq := insertH_present hinv v lvl hj hjk
  obtain ⟨hskey, hsh, hst⟩ := setVal_shape hj.2 v
  have hlen : (sl.nodes.set j { nodeAt sl.nodes j with val := v }).length = sl.nodes.length :=
    List.length_set sl.nodes j _
  have hval : nodeAt (sl.nodes.set j { nodeAt sl.nodes j with val := v }) j =
      { nodeAt sl.nodes j with val := v } := nodeAt_set_self _ hj.2
  have hvne : ∀ j', j ≠ j' → nodeAt (sl.nodes.set j { nodeAt sl.nodes j with val := v }) j' =
      nodeAt sl.nodes j' := fun j' h => nodeAt_set_ne _ h
  refine ⟨_, heq, inv_of_same_shape hlen hskey hsh hst rfl rfl hinv, rfl, rfl, hlen,
    hskey, hsh, hst, ?_, ?_, ?_, ?_⟩
  · intro v'
    constructor
    · rintro ⟨j', hj', hj'k, hj'v⟩
      have hj'r : RealIdx sl.nodes j' := by
        unfold RealIdx at hj' ⊢
        rw [hlen] at hj'
        exact hj'
      have : j' = j := by
        apply hinv.inj j' j hj'r hj
        rw [← hskey j', hj'k, hjk]
      subst this
      rw [hval] at hj'v
      exact hj'v.symm
    · rintro rfl
      refine ⟨j, ?_, ?_, ?_⟩
      · unfold RealIdx at hj ⊢
        rw [hlen]
        exact hj
      · rw [hskey j, hjk]
      · rw [hval]
  · intro k' hk' v'
    constructor
    · rintro ⟨j', hj', hj'k, hj'v⟩
      have hj'r : RealIdx sl.nodes j' := by
        unfold RealIdx at hj' ⊢
        rw [hlen] at hj'
        exact hj'
      have hne : j ≠ j' := by
        intro h
        apply hk'
        rw [← hj'k, hskey j', ← h]
        exact hjk
      refine ⟨j', hj'r, ?_, ?_⟩
      · rw [← hskey j']
        exact hj'k
      · rw [← hvne j' hne]
        exact hj'v
    · rintro ⟨j', hj'r, hj'k, hj'v⟩
      have hne : j ≠ j' := by
        intro h
        apply hk'
        rw [← hj'k, ← h]
        exact hjk
      refine ⟨j', ?_, ?_, ?_⟩
      · unfold RealIdx at hj'r ⊢
        rw [hlen]
        exact hj'r
      · rw [hskey j']
        exact hj'k
      · rw [hvne j' hne]
        exact hj'v
  · refine List.ext_getElem? ?_
    intro i
    rw [List.getElem?_map, List.getElem?_map, List.getElem?_set]
    by_cases h : j = i
    · subst h
      rw [if_pos rfl, if_pos hj.2, nodeAt_getElem hj.2]
      rfl
    · rw [if_neg h]
  · refine List.ext_getElem? ?_
    intro i
    rw [List.getElem?_map, List.getElem?_map, List.getElem?_set]
    by_cases h : j = i
    · subst h
      rw [if_pos rfl, if_pos hj.2, nodeAt_getElem hj.2]
      rfl
    · rw [if_neg h]

/-! ### Insert: the fresh-node path -/

theorem extendUpdate_length (upd : List (Option Nat)) (start : Nat) :
    ∀ c, (extendUpdate upd start c).length = upd.length := by
  intro c
  induction c with
  | zero => rfl
  | succ c ih => rw [extendUpdate, List.length_set, ih]

theorem extendUpdate_getElem (upd : List (Option Nat)) (start : Nat) :
    ∀ c j, (extendUpdate upd start c)[j]? =
      if start ≤ j ∧ j < start + c ∧ j < upd.length then some (some 0) else upd[j]? := by
  intro c
  induction c with
  | zero =>
    intro j
    rw [extendUpdate, if_neg]
    intro h
    omega
  | succ c ih =>
    intro j
    rw [extendUpdate, List.getElem?_set, extendUpdate_length upd start c, ih j]
    by_cases h1 : start + c = j
    · subst h1
      by_cases h2 : start + c < upd.length
      · rw [if_pos rfl, if_pos h2, if_pos (by omega)]
      · rw [if_pos rfl, if_neg h2, if_neg (show ¬ (start ≤ start + c ∧
          start + c < start + (c + 1) ∧ start + c < upd.length) by omega)]
        symm
        exact List.getElem?_eq_none (by omega)
    · rw [if_neg h1]
      by_cases h3 : start ≤ j ∧ j < start + c ∧ j < upd.length
      · rw [if_pos h3, if_pos (by omega)]
      · rw [if_neg h3, if_neg (by omega)]

theorem spliceLoop_spec {sl : SkipList K V} (hinv : Inv sl) {k : K} {v : V} {lvl : Nat}
    (hM : lvl ≤ MAX_LEVEL)
    {upd2 : List (Option Nat)} {p : Nat → Nat}
    (hp : ∀ i, i < lvl → upd2[i]? = some (some (p i)))
    (hpred : ∀ i, i < lvl → IsPredAt sl.nodes k i (p i)) :
    ∀ m, m ≤ lvl →
      ∃ ns, spliceLoop (sl.nodes ++ [{ key := k, val := v, tower := List.replicate lvl none }])
          upd2 sl.nodes.length m = some ns ∧
        ns.length = sl.nodes.length + 1 ∧
        (∀ j, j < sl.nodes.length → (nodeAt ns j).key = (nodeAt sl.nodes j).key ∧
          (nodeAt ns j).val = (nodeAt sl.nodes j).val ∧
          heightAt ns j = heightAt sl.nodes j) ∧
        ((nodeAt ns sl.nodes.length).key = k ∧ (nodeAt ns sl.nodes.length).val = v ∧
          heightAt ns sl.nodes.length = lvl) ∧
        (∀ i, i < m → towAt ns sl.nodes.length i = towAt sl.nodes (p i) i) ∧
        (∀ i, i < m → towAt ns (p i) i = some sl.nodes.length) ∧
        (∀ j i, ¬ (i < m ∧ (j = sl.nodes.length ∨ j = p i)) → j < sl.nodes.length →
          towAt ns j i = towAt sl.nodes j i) ∧
        (∀ i, ¬ i < m → towAt ns sl.nodes.length i = none) := by
  intro m
  induction m with
  | zero =>
    intro _
    refine ⟨_, rfl, ?_, ?_, ?_, ?_, ?_, ?_, ?_⟩
    · rw [List.length_append, List.length_singleton]
    · intro j hj
      rw [nodeAt_append_lt _ hj, heightAt, heightAt, nodeAt_append_lt _ hj]
      exact ⟨rfl, rfl, rfl⟩
    · rw [nodeAt_append_len, heightAt, nodeAt_append_len]
      exact ⟨rfl, rfl, List.length_replicate lvl none⟩
    · intro i hi
      exact absurd hi (Nat.not_lt_zero i)
    · intro i hi
      exact absurd hi (Nat.not_lt_zero i)
    · intro j i _ hj
      rw [towAt, towAt, nodeAt_append_lt _ hj]
    · intro i _
      refine towAt_replicate_none i ?_
      simp [heightAt, nodeAt_append_len]
  | succ m ih =>
    intro hm1
    have hm : m < lvl := hm1
    obtain ⟨ns, hrun, hlen, hold, hnew, hC1, hC2, hC3, hC4⟩ := ih (le_of_lt hm)
    have hne : 0 < sl.nodes.length := List.length_pos.mpr hinv.ne
    have hpm := hpred m hm
    obtain ⟨hpmlen, hpmh⟩ := isPredAt_range hinv (lt_of_lt_of_le hm hM) hpm
    have hxne : p m ≠ sl.nodes.length := by omega
    have hpmlen' : p m < ns.length := by omega
    have hxlen' : sl.nodes.length < ns.length := by omega
    have hhp : heightAt ns (p m) = heightAt sl.nodes (p m) := (hold (p m) hpmlen).2.2
    have hhx : heightAt ns sl.nodes.length = lvl := hnew.2.2
    simp only [spliceLoop]
    rw [hrun]
    simp only [Option.bind_eq_bind, Option.some_bind]
    rw [hp m hm]
    simp only [Option.some_bind]
    rw [nodeAt_getElem hpmlen']
    simp only [Option.some_bind]
    rw [towAt_getElem (show m < heightAt ns (p m) by rw [hhp]; exact hpmh)]
    simp only [Option.some_bind]
    rw [nodeAt_getElem hxlen']
    simp only [Option.some_bind]
    simp only [towerSet]
    rw [if_pos (show m < (nodeAt ns sl.nodes.length).tower.length from by
      show m < heightAt ns sl.nodes.length
      rw [hhx]
      exact hm)]
    simp only [Option.some_bind]
    have hs2len : (ns.set sl.nodes.length
        { nodeAt ns sl.nodes.length with
          tower := (nodeAt ns sl.nodes.length).tower.set m (towAt ns (p m) m) }).length =
        ns.length := List.length_set _ _ _
    rw [nodeAt_getElem (show p m < (ns.set sl.nodes.length _).length by
      rw [hs2len]; exact hpmlen')]
    simp only [Option.some_bind]
    rw [nodeAt_set_ne _ (show sl.nodes.length ≠ p m from fun h => hxne h.symm)]
    rw [if_pos (show m < (nodeAt ns (p m)).tower.length from by
      show m < heightAt ns (p m)
      rw [hhp]
      exact hpmh)]
    simp only [Option.some_bind]
    have hlnk : towAt ns (p m) m = towAt sl.nodes (p m) m :=
      hC3 (p m) m (fun h => absurd h.1 (lt_irrefl m)) hpmlen
    set Xnew : Node K V := { nodeAt ns sl.nodes.length with
      tower := (nodeAt ns sl.nodes.length).tower.set m (towAt ns (p m) m) } with hXnew
    set Pnew : Node K V := { nodeAt ns (p m) with
      tower := (nodeAt ns (p m)).tower.set m (some sl.nodes.length) } with hPnew
    have hXt : Xnew.tower = (nodeAt ns sl.nodes.length).tower.set m (towAt ns (p m) m) := by
      rw [hXnew]
    have hPt : Pnew.tower = (nodeAt ns (p m)).tower.set m (some sl.nodes.length) := by
      rw [hPnew]
    have hmX : m < (nodeAt ns sl.nodes.length).tower.length := by
      show m < heightAt ns sl.nodes.length
      rw [hhx]
      exact hm
    have hmP : m < (nodeAt ns (p m)).tower.length := by
      show m < heightAt ns (p m)
      rw [hhp]
      exact hpmh
    have hn'p : nodeAt ((ns.set sl.nodes.length Xnew).set (p m) Pnew) (p m) = Pnew :=
      nodeAt_set_self _ (by rw [List.length_set]; exact hpmlen')
    have hn'x : nodeAt ((ns.set sl.nodes.length Xnew).set (p m) Pnew) sl.nodes.length = Xnew := by
      rw [nodeAt_set_ne _ hxne, nodeAt_set_self _ hxlen']
    have hn'o : ∀ j', j' ≠ sl.nodes.length → j' ≠ p m →
        nodeAt ((ns.set sl.nodes.length Xnew).set (p m) Pnew) j' = nodeAt ns j' := by
      intro j' h1 h2
      rw [nodeAt_set_ne _ (fun h => h2 h.symm), nodeAt_set_ne _ (fun h => h1 h.symm)]
    refine ⟨_, rfl, ?_, ?_, ?_, ?_, ?_, ?_, ?_⟩
    · rw [List.length_set, List.length_set, hlen]
    · intro j hj
      have hjx : j ≠ sl.nodes.length := by omega
      by_cases hjp : j = p m
      · have hn'j : nodeAt ((ns.set sl.nodes.length Xnew).set (p m) Pnew) j = Pnew := by
          rw [hjp]
          exact hn'p
        refine ⟨?_, ?_, ?_⟩
        · rw [hn'j, hPnew, ← hjp]
          exact (hold j hj).1
        · rw [hn'j, hPnew, ← hjp]
          exact (hold j hj).2.1
        · rw [heightAt, hn'j, hPt, List.length_set, ← hjp]
          exact (hold j hj).2.2
      · refine ⟨?_, ?_, ?_⟩
        · rw [hn'o j hjx hjp]
          exact (hold j hj).1
        · rw [hn'o j hjx hjp]
          exact (hold j hj).2.1
        · rw [heightAt, hn'o j hjx hjp]
          exact (hold j hj).2.2
    · refine ⟨?_, ?_, ?_⟩
      · rw [hn'x]
        exact hnew.1
      · rw [hn'x]
        exact hnew.2.1
      · rw [heightAt, hn'x, hXt, List.length_set]
        exact hhx
    · intro i hi
      rw [towAt, hn'x, hXt]
      by_cases him : i = m
      · subst him
        rw [getD_set_self hmX]
        exact hlnk
      · rw [getD_set_ne _ _ (fun h => him h.symm)]
        exact hC1 i (by omega)
    · intro i hi
      by_cases him : i = m
      · subst him
        rw [towAt, hn'p, hPt, getD_set_self hmP]
      · have hi' : i < m := by omega
        obtain ⟨hpil, _⟩ := isPredAt_range hinv
          (lt_of_lt_of_le (lt_trans hi' hm) hM) (hpred i (lt_trans hi' hm))
        by_cases hpp : p i = p m
        · rw [hpp, towAt, hn'p, hPt, getD_set_ne _ _ (fun h => him h.symm)]
          have h2 := hC2 i hi'
          rw [hpp] at h2
          exact h2
        · have hpix : p i ≠ sl.nodes.length := by omega
          rw [towAt, hn'o (p i) hpix hpp]
          exact hC2 i hi'
    · intro j i hcond hj
      have hjx : j ≠ sl.nodes.length := by omega
      by_cases hjp : j = p m
      · have him : i ≠ m := by
          intro h
          exact hcond ⟨by omega, Or.inr (by rw [h, hjp])⟩
        have hn'j : nodeAt ((ns.set sl.nodes.length Xnew).set (p m) Pnew) j = Pnew := by
          rw [hjp]
          exact hn'p
        rw [towAt, hn'j, hPt, getD_set_ne _ _ (fun h => him h.symm), ← hjp]
        exact hC3 j i (fun hc => hcond ⟨by omega, hc.2⟩) hj
      · rw [towAt, hn'o j hjx hjp]
        exact hC3 j i (fun hc => hcond ⟨by omega, hc.2⟩) hj
    · intro i hi
      have him : i ≠ m := by omega
      rw [towAt, hn'x, hXt, getD_set_ne _ _ (fun h => him h.symm)]
      exact hC4 i (by omega)

theorem insert_canon {sl : SkipList K V} (hinv : Inv sl) {k : K} {lvl : Nat}
    (hM : lvl ≤ MAX_LEVEL) (hk : ¬ HasKey sl k)
    {p : Nat → Nat} (hpred : ∀ i, i < lvl → IsPredAt sl.nodes k i (p i))
    {A : List (Node K V)}
    (hAlen : A.length = sl.nodes.length + 1)
    (hkeyA : ∀ j, j < sl.nodes.length → keyAt A j = keyAt sl.nodes j)
    (hkeyAx : keyAt A sl.nodes.length = k)
    (hhA : ∀ j, j < sl.nodes.length → heightAt A j = heightAt sl.nodes j)
    (hhAx : heightAt A sl.nodes.length = lvl)
    (hC1 : ∀ i, i < lvl → towAt A sl.nodes.length i = towAt sl.nodes (p i) i)
    (hC2 : ∀ i, i < lvl → towAt A (p i) i = some sl.nodes.length)
    (hC3 : ∀ j i, ¬ (i < lvl ∧ (j = sl.nodes.length ∨ j = p i)) → j < sl.nodes.length →
      towAt A j i = towAt sl.nodes j i) :
    ∀ j i, j < A.length → i < heightAt A j →
      IsLeastSucc A (boundOf A j) i (towAt A j i) := by
  have hne : 0 < sl.nodes.length := List.length_pos.mpr hinv.ne
  have hnotk : ∀ q, RealIdx sl.nodes q → keyAt sl.nodes q ≠ k := fun q hq hek => hk ⟨q, hq, hek⟩
  have habA : ∀ (b : Option K) q, q < sl.nodes.length → (AboveK A b q ↔ AboveK sl.nodes b q) := by
    intro b q hq
    cases b with
    | none => exact Iff.rfl
    | some kb =>
      show kb < keyAt A q ↔ kb < keyAt sl.nodes q
      rw [hkeyA q hq]
  have hsucc1 : ∀ (b : Option K) i q, SuccK A b i q →
      (q < sl.nodes.length ∧ SuccK sl.nodes b i q) ∨
      (q = sl.nodes.length ∧ i < lvl ∧ AboveK A b q) := by
    intro b i q hq
    obtain ⟨⟨hr, hh⟩, hab⟩ := hq
    by_cases hqn : q = sl.nodes.length
    · right
      refine ⟨hqn, ?_, hab⟩
      rw [hqn] at hh
      rw [hhAx] at hh
      exact hh
    · left
      have hq' : q < sl.nodes.length := by
        have := hr.2
        rw [hAlen] at this
        omega
      refine ⟨hq', ⟨⟨hr.1, hq'⟩, ?_⟩, (habA b q hq').mp hab⟩
      rw [← hhA q hq']
      exact hh
  have hsucc2old : ∀ (b : Option K) i q, SuccK sl.nodes b i q → SuccK A b i q := by
    intro b i q hq
    have hq' : q < sl.nodes.length := hq.1.1.2
    refine ⟨⟨⟨hq.1.1.1, ?_⟩, ?_⟩, (habA b q hq').mpr hq.2⟩
    · rw [hAlen]
      omega
    · rw [hhA q hq']
      exact hq.1.2
  have hsucc2new : ∀ (b : Option K) i, i < lvl → AboveK A b sl.nodes.length →
      SuccK A b i sl.nodes.length := by
    intro b i hi hab
    refine ⟨⟨⟨by omega, by rw [hAlen]; omega⟩, ?_⟩, hab⟩
    rw [hhAx]
    exact hi
  have hboundA : ∀ j, j < sl.nodes.length → boundOf A j = boundOf sl.nodes j := by
    intro j hj
    unfold boundOf
    by_cases hj0 : j = 0
    · rw [if_pos hj0, if_pos hj0]
    · rw [if_neg hj0, if_neg hj0, hkeyA j hj]
  intro j i hj hih
  by_cases hjn : j = sl.nodes.length
  · subst hjn
    have hilvl : i < lvl := by
      rw [hhAx] at hih
      exact hih
    have hpi := hpred i hilvl
    obtain ⟨hpil, hpih⟩ := isPredAt_range hinv (lt_of_lt_of_le hilvl hM) hpi
    rw [hC1 i hilvl]
    have hbAn : boundOf A sl.nodes.length = some k := by
      unfold boundOf
      rw [if_neg (by omega), hkeyAx]
    rw [hbAn]
    have hcanon := hinv.canon (p i) i hpil hpih
    have habove : ∀ q, SuccK sl.nodes (some k) i q →
        SuccK sl.nodes (boundOf sl.nodes (p i)) i q := by
      intro q hq
      refine ⟨hq.1, ?_⟩
      rcases hpi.1 with h0 | ⟨hr, _, hkp⟩
      · rw [h0, boundOf_zero]
        trivial
      · rw [boundOf_ne (show p i ≠ 0 by have := hr.1; omega)]
        show keyAt sl.nodes (p i) < keyAt sl.nodes q
        exact lt_trans hkp hq.2
    cases ht : towAt sl.nodes (p i) i with
    | none =>
      rw [ht] at hcanon
      intro q hq
      rcases hsucc1 _ _ _ hq with ⟨hq', hqold⟩ | ⟨hqn, _, hab⟩
      · exact hcanon q (habove q hqold)
      · rw [hqn] at hab
        have : k < keyAt A sl.nodes.length := hab
        rw [hkeyAx] at this
        exact lt_irrefl k this
    | some c =>
      rw [ht] at hcanon
      obtain ⟨hsc, hmin⟩ := hcanon
      have hc' : c < sl.nodes.length := hsc.1.1.2
      refine ⟨?_, ?_⟩
      · apply hsucc2old
        refine ⟨hsc.1, ?_⟩
        show k < keyAt sl.nodes c
        have hge : k ≤ keyAt sl.nodes c := hpi.2 c hsc.1 hsc.2
        exact lt_of_le_of_ne hge (fun h => hnotk c hsc.1.1 h.symm)
      · intro q hq
        rcases hsucc1 _ _ _ hq with ⟨hq', hqold⟩ | ⟨hqn, _, hab⟩
        · rw [hkeyA c hc', hkeyA q hq']
          exact hmin q (habove q hqold)
        · rw [hqn] at hab
          have : k < keyAt A sl.nodes.length := hab
          rw [hkeyAx] at this
          exact absurd this (lt_irrefl k)
  · have hjlt : j < sl.nodes.length := by
      rw [hAlen] at hj
      omega
    have hihs : i < heightAt sl.nodes j := by
      rw [← hhA j hjlt]
      exact hih
    rw [hboundA j hjlt]
    have hcanon := hinv.canon j i hjlt hihs
    by_cases hsp : i < lvl ∧ j = p i
    · obtain ⟨hilvl, hjp⟩ := hsp
      have hpi := hpred i hilvl
      rw [hjp, hC2 i hilvl]
      refine ⟨?_, ?_⟩
      · apply hsucc2new _ _ hilvl
        rcases hpi.1 with h0 | ⟨hr, _, hkp⟩
        · rw [h0, boundOf_zero]
          trivial
        · rw [boundOf_ne (show p i ≠ 0 by have := hr.1; omega)]
          show keyAt sl.nodes (p i) < keyAt A sl.nodes.length
          rw [hkeyAx]
          exact hkp
      · intro q hq
        rcases hsucc1 _ _ _ hq with ⟨hq', hqold⟩ | ⟨hqn, _, _⟩
        · have h5 : k ≤ keyAt sl.nodes q := hpi.2 q hqold.1 hqold.2
          show keyAt A sl.nodes.length ≤ keyAt A q
          rw [hkeyAx, hkeyA q hq']
          exact h5
        · rw [hqn]
    · have hnc : towAt A j i = towAt sl.nodes j i :=
        hC3 j i (fun hcon => hcon.2.elim (fun h => hjn h) (fun h => hsp ⟨hcon.1, h⟩)) hjlt
      rw [hnc]
      by_cases hx : i < lvl ∧ (j = 0 ∨ (j ≠ 0 ∧ keyAt sl.nodes j < k))
      · obtain ⟨hilvl, hor⟩ := hx
        have hpi := hpred i hilvl
        have hjnp : j ≠ p i := fun h => hsp ⟨hilvl, h⟩
        have hstep : p i ≠ 0 ∧ SuccK sl.nodes (boundOf sl.nodes j) i (p i) := by
          by_cases hj0 : j = 0
          · have hpne : p i ≠ 0 := fun h0 => hjnp (by rw [hj0, h0])
            rcases hpi.1 with h0 | ⟨hr, hh2, _⟩
            · exact absurd h0 hpne
            · refine ⟨hpne, ⟨⟨hr, hh2⟩, ?_⟩⟩
              rw [hj0, boundOf_zero]
              trivial
          · have hjr : RealIdx sl.nodes j := ⟨by omega, hjlt⟩
            have hjk : keyAt sl.nodes j < k := by
              rcases hor with h0 | hh3
              · exact absurd h0 hj0
              · exact hh3.2
            have hpne : p i ≠ 0 := by
              intro h0
              have h5 := hpi.2 j ⟨hjr, hihs⟩ (by rw [h0, boundOf_zero]; trivial)
              exact absurd h5 (not_le.mpr hjk)
            rcases hpi.1 with h0 | ⟨hr, hh2, _⟩
            · exact absurd h0 hpne
            · refine ⟨hpne, ⟨⟨hr, hh2⟩, ?_⟩⟩
              rw [boundOf_ne hj0]
              show keyAt sl.nodes j < keyAt sl.nodes (p i)
              have hle : keyAt sl.nodes j ≤ keyAt sl.nodes (p i) := by
                by_contra hgt
                push_neg at hgt
                have h5 := hpi.2 j ⟨hjr, hihs⟩ (by rw [boundOf_ne hpne]; exact hgt)
                exact absurd h5 (not_le.mpr hjk)
              rcases lt_or_eq_of_le hle with hlt2 | heq2
              · exact hlt2
              · exact absurd (hinv.inj j (p i) hjr hr heq2) hjnp
        obtain ⟨hpne, hsuccpj⟩ := hstep
        have hkplt : keyAt sl.nodes (p i) < k := by
          rcases hpi.1 with h0 | ⟨_, _, hkp⟩
          · exact absurd h0 hpne
          · exact hkp
        cases ht : towAt sl.nodes j i with
        | none =>
          rw [ht] at hcanon
          exact absurd hsuccpj (hcanon (p i))
        | some c =>
          rw [ht] at hcanon
          obtain ⟨hsc, hmin⟩ := hcanon
          have hc' : c < sl.nodes.length := hsc.1.1.2
          have hck : keyAt sl.nodes c < k := lt_of_le_of_lt (hmin (p i) hsuccpj) hkplt
          refine ⟨hsucc2old _ _ _ hsc, ?_⟩
          intro q hq
          rcases hsucc1 _ _ _ hq with ⟨hq', hqold⟩ | ⟨hqn, _, _⟩
          · rw [hkeyA c hc', hkeyA q hq']
            exact hmin q hqold
          · rw [hqn, hkeyAx, hkeyA c hc']
            exact le_of_lt hck
      · have hnotx : ¬ SuccK A (boundOf sl.nodes j) i sl.nodes.length := by
          intro hq
          apply hx
          refine ⟨?_, ?_⟩
          · have h5 := hq.1.2
            rw [hhAx] at h5
            exact h5
          · by_cases hj0 : j = 0
            · exact Or.inl hj0
            · right
              refine ⟨hj0, ?_⟩
              have h5 := hq.2
              rw [boundOf_ne hj0] at h5
              have h6 : keyAt sl.nodes j < keyAt A sl.nodes.length := h5
              rw [hkeyAx] at h6
              exact h6
        cases ht : towAt sl.nodes j i with
        | none =>
          rw [ht] at hcanon
          intro q hq
          rcases hsucc1 _ _ _ hq with ⟨hq', hqold⟩ | ⟨hqn, _, _⟩
          · exact hcanon q hqold
          · rw [hqn] at hq
            exact hnotx hq
        | some c =>
          rw [ht] at hcanon
          obtain ⟨hsc, hmin⟩ := hcanon
          refine ⟨hsucc2old _ _ _ hsc, ?_⟩
          intro q hq
          rcases hsucc1 _ _ _ hq with ⟨hq', hqold⟩ | ⟨hqn, _, _⟩
          · rw [hkeyA c hsc.1.1.2, hkeyA q hq']
            exact hmin q hqold
          · rw [hqn] at hq
            exact absurd hq hnotx

theorem insertNew_spec {sl : SkipList K V} (hinv : Inv sl) {k : K} (v : V) {lvl : Nat}
    (h1 : 1 ≤ lvl) (hM : lvl ≤ MAX_LEVEL) (hk : ¬ HasKey sl k)
    {upd : List (Option Nat)} (hulen : upd.length = MAX_LEVEL)
    (hbelow : ∀ i, i < sl.level → ∃ q, upd[i]? = some (some q) ∧ IsPredAt sl.nodes k i q) :
    ∃ sl', insertNew sl k v lvl upd = some sl' ∧ Inv sl' ∧
      sl'.size = sl.size + 1 ∧
      sl'.level = max sl.level lvl ∧
      sl'.nodes.length = sl.nodes.length + 1 ∧
      keyAt sl'.nodes sl.nodes.length = k ∧
      (nodeAt sl'.nodes sl.nodes.length).val = v ∧
      heightAt sl'.nodes sl.nodes.length = lvl ∧
      (∀ j, j < sl.nodes.length → keyAt sl'.nodes j = keyAt sl.nodes j ∧
        (nodeAt sl'.nodes j).val = (nodeAt sl.nodes j).val ∧
        heightAt sl'.nodes j = heightAt sl.nodes j) ∧
      (∀ i, i < lvl → ∃ q, IsPredAt sl.nodes k i q ∧
        towAt sl'.nodes sl.nodes.length i = towAt sl.nodes q i ∧
        towAt sl'.nodes q i = some sl.nodes.length ∧ (sl.level ≤ i → q = 0)) ∧
      (∀ v', HasKV sl' k v' ↔ v' = v) ∧
      (∀ k', k' ≠ k → ∀ v', HasKV sl' k' v' ↔ HasKV sl k' v') := by
  have hne : 0 < sl.nodes.length := List.length_pos.mpr hinv.ne
  have hnotk : ∀ q, RealIdx sl.nodes q → keyAt sl.nodes q ≠ k := fun q hq hek => hk ⟨q, hq, hek⟩
  set upd2 : List (Option Nat) :=
    if sl.level < lvl then extendUpdate upd sl.level (lvl - sl.level) else upd with hupd2
  have hup2 : ∀ i, i < lvl → ∃ q, upd2[i]? = some (some q) ∧ IsPredAt sl.nodes k i q ∧
      (sl.level ≤ i → q = 0) := by
    intro i hi
    by_cases hil : i < sl.level
    · obtain ⟨q, hq1, hq2⟩ := hbelow i hil
      refine ⟨q, ?_, hq2, fun h => absurd hil (not_lt.mpr h)⟩
      rw [hupd2]
      by_cases hcase : sl.level < lvl
      · rw [if_pos hcase, extendUpdate_getElem, if_neg (fun hcon => by omega)]
        exact hq1
      · rw [if_neg hcase]
        exact hq1
    · have hcase : sl.level < lvl := by omega
      refine ⟨0, ?_, ⟨Or.inl rfl, ?_⟩, fun _ => rfl⟩
      · rw [hupd2, if_pos hcase, extendUpdate_getElem,
          if_pos ⟨by omega, by omega, by rw [hulen]; omega⟩]
      · intro q hq hab
        exfalso
        have h5 := hinv.hUB q hq.1
        have h6 := hq.2
        omega
  set pfun : Nat → Nat := fun i => ((upd2[i]?).getD none).getD 0 with hpf
  have hpeq : ∀ i, i < lvl → upd2[i]? = some (some (pfun i)) ∧
      IsPredAt sl.nodes k i (pfun i) ∧ (sl.level ≤ i → pfun i = 0) := by
    intro i hi
    obtain ⟨q, hq1, hq2, hq3⟩ := hup2 i hi
    have heq : pfun i = q := by
      rw [hpf]
      simp only []
      rw [hq1]
      rfl
    rw [heq]
    exact ⟨hq1, hq2, hq3⟩
  obtain ⟨A, hsplice, hAlen, hold, hnew, hC1, hC2, hC3, hC4⟩ :=
    spliceLoop_spec hinv hM (fun i hi => (hpeq i hi).1) (fun i hi => (hpeq i hi).2.1)
      lvl (le_refl lvl)
  have hkeyA : ∀ j, j < sl.nodes.length → keyAt A j = keyAt sl.nodes j :=
    fun j hj => (hold j hj).1
  have hkeyAx : keyAt A sl.nodes.length = k := hnew.1
  have hhA : ∀ j, j < sl.nodes.length → heightAt A j = heightAt sl.nodes j :=
    fun j hj => (hold j hj).2.2
  have hhAx : heightAt A sl.nodes.length = lvl := hnew.2.2
  have hcanonA := insert_canon hinv hM hk (fun i hi => (hpeq i hi).2.1) hAlen hkeyA hkeyAx
    hhA hhAx hC1 hC2 hC3
  set lvl2 : Nat := if sl.level < lvl then lvl else sl.level with hlvl2
  have hlvl2max : lvl2 = max sl.level lvl := by
    rw [hlvl2]
    by_cases h : sl.level < lvl
    · rw [if_pos h, max_eq_right (le_of_lt h)]
    · rw [if_neg h, max_eq_left (not_lt.mp h)]
  refine ⟨⟨A, sl.size + 1, lvl2⟩, ?_, ?_, rfl, hlvl2max, hAlen, hkeyAx, hnew.2.1, hhAx,
    hold, ?_, ?_, ?_⟩
  · simp only [insertNew]
    rw [← hupd2, ← hlvl2, hsplice]
    simp only [Option.bind_eq_bind, Option.some_bind]
  · refine ⟨?_, ?_, ?_, ?_, ?_, ?_, ?_, ?_, hcanonA⟩
    · apply List.length_pos.mp
      rw [hAlen]
      omega
    · show heightAt A 0 = MAX_LEVEL
      rw [hhA 0 hne, hinv.headH]
    · show 1 ≤ lvl2
      rw [hlvl2max]
      exact le_trans hinv.lvl1 (le_max_left _ _)
    · show lvl2 ≤ MAX_LEVEL
      rw [hlvl2max]
      exact max_le hinv.lvlM hM
    · intro q hq
      show 1 ≤ heightAt A q
      by_cases hqn : q = sl.nodes.length
      · rw [hqn, hhAx]
        exact h1
      · have hq' : q < sl.nodes.length := by
          have := hq.2
          rw [hAlen] at this
          omega
        rw [hhA q hq']
        exact hinv.hLB q ⟨hq.1, hq'⟩
    · intro q hq
      show heightAt A q ≤ lvl2
      rw [hlvl2max]
      by_cases hqn : q = sl.nodes.length
      · rw [hqn, hhAx]
        exact le_max_right _ _
      · have hq' : q < sl.nodes.length := by
          have := hq.2
          rw [hAlen] at this
          omega
        rw [hhA q hq']
        exact le_trans (hinv.hUB q ⟨hq.1, hq'⟩) (le_max_left _ _)
    · show sl.size + 1 = A.length - 1
      rw [hAlen]
      have := hinv.szEq
      omega
    · intro q r hq hr heq
      by_cases hqn : q = sl.nodes.length
      · by_cases hrn : r = sl.nodes.length
        · rw [hqn, hrn]
        · have hr' : r < sl.nodes.length := by
            have := hr.2
            rw [hAlen] at this
            omega
          exfalso
          apply hnotk r ⟨hr.1, hr'⟩
          rw [← hkeyA r hr', ← heq, hqn]
          exact hkeyAx
      · have hq' : q < sl.nodes.length := by
          have := hq.2
          rw [hAlen] at this
          omega
        by_cases hrn : r = sl.nodes.length
        · exfalso
          apply hnotk q ⟨hq.1, hq'⟩
          rw [← hkeyA q hq', heq, hrn]
          exact hkeyAx
        · have hr' : r < sl.nodes.length := by
            have := hr.2
            rw [hAlen] at this
            omega
          apply hinv.inj q r ⟨hq.1, hq'⟩ ⟨hr.1, hr'⟩
          rw [← hkeyA q hq', ← hkeyA r hr']
          exact heq
  · intro i hi
    exact ⟨pfun i, (hpeq i hi).2.1, hC1 i hi, hC2 i hi, fun h => (hpeq i hi).2.2 h⟩
  · intro v'
    constructor
    · rintro ⟨q, hq, hqk, hqv⟩
      by_cases hqn : q = sl.nodes.length
      · rw [hqn] at hqv
        exact (hnew.2.1.symm.trans hqv).symm
      · have hq' : q < sl.nodes.length := by
          have := hq.2
          rw [hAlen] at this
          omega
        exfalso
        apply hnotk q ⟨hq.1, hq'⟩
        rw [← hkeyA q hq']
        exact hqk
    · rintro rfl
      exact ⟨sl.nodes.length, ⟨by omega, by rw [hAlen]; omega⟩, hkeyAx, hnew.2.1⟩
  · intro k' hk' v'
    constructor
    · rintro ⟨q, hq, hqk, hqv⟩
      by_cases hqn : q = sl.nodes.length
      · exfalso
        apply hk'
        rw [← hqk, hqn]
        exact hkeyAx
      · have hq' : q < sl.nodes.length := by
          have := hq.2
          rw [hAlen] at this
          omega
        refine ⟨q, ⟨hq.1, hq'⟩, ?_, ?_⟩
        · rw [← hkeyA q hq']
          exact hqk
        · rw [← (hold q hq').2.1]
          exact hqv
    · rintro ⟨q, hq, hqk, hqv⟩
      have hq' : q < sl.nodes.length := hq.2
      refine ⟨q, ⟨hq.1, by rw [hAlen]; omega⟩, ?_, ?_⟩
      · rw [hkeyA q hq']
        exact hqk
      · rw [(hold q hq').2.1]
        exact hqv

/-! ### The combined insert step and the abstract-map refinement -/

theorem insertH_to_insertNew {sl : SkipList K V} (hinv : Inv sl) {k : K} (v : V) (lvl : Nat)
    (hk : ¬ HasKey sl k) :
    ∃ upd, upd.length = MAX_LEVEL ∧
      (∀ i, i < sl.level → ∃ q, upd[i]? = some (some q) ∧ IsPredAt sl.nodes k i q) ∧
      sl.insertH k v lvl = insertNew sl k v lvl upd := by
  obtain ⟨cand, upd, heq, hcand, hulen, hbelow, _⟩ := find_spec hinv k
  refine ⟨upd, hulen, hbelow, ?_⟩
  simp only [SkipList.insertH]
  rw [heq]
  simp only [Option.bind_eq_bind, Option.some_bind]
  cases cand with
  | none => rfl
  | some c =>
    obtain ⟨hcr, _, _⟩ := hcand
    simp only []
    rw [nodeAt_getElem hcr.2]
    simp only [Option.bind_eq_bind, Option.some_bind]
    rw [if_neg]
    intro hc
    exact hk ⟨c, hcr, hc⟩

theorem insertH_step {sl : SkipList K V} (hinv : Inv sl) (k : K) (v : V) {lvl : Nat}
    (h1 : 1 ≤ lvl) (hM : lvl ≤ MAX_LEVEL) :
    ∃ sl', sl.insertH k v lvl = some sl' ∧ Inv sl' ∧
      (∀ v', HasKV sl' k v' ↔ v' = v) ∧
      (∀ k', k' ≠ k → ∀ v', HasKV sl' k' v' ↔ HasKV sl k' v') ∧
      (HasKey sl k → sl'.size = sl.size ∧ sl'.level = sl.level ∧
        sl'.nodes.length = sl.nodes.length) ∧
      (¬ HasKey sl k → sl'.size = sl.size + 1 ∧ sl'.level = max sl.level lvl ∧
        sl'.nodes.length = sl.nodes.length + 1) := by
  by_cases hkk : HasKey sl k
  · obtain ⟨sl', c1, c2, c3, c4, c5, _, _, _, c9, c10, _, _⟩ :=
      insertH_present_spec hinv v lvl hkk
    exact ⟨sl', c1, c2, c9, c10, fun _ => ⟨c3, c4, c5⟩, fun hh => absurd hkk hh⟩
  · obtain ⟨upd, hulen, hbelow, hred⟩ := insertH_to_insertNew hinv v lvl hkk
    obtain ⟨sl', c1, c2, c3, c4, c5, _, _, _, _, _, c11, c12⟩ :=
      insertNew_spec hinv v h1 hM hkk hulen hbelow
    rw [hred]
    exact ⟨sl', c1, c2, c11, c12, fun hh => absurd hh hkk, fun _ => ⟨c3, c4, c5⟩⟩

theorem models_hasKey {sl : SkipList K V} {m : K → Option V} (hm : Models sl m) (k : K) :
    HasKey sl k ↔ m k ≠ none := by
  obtain ⟨_, hkv⟩ := hm
  constructor
  · rintro ⟨j, hj, hjk⟩
    have h2 : HasKV sl k (nodeAt sl.nodes j).val := ⟨j, hj, hjk, rfl⟩
    rw [hkv] at h2
    rw [h2]
    exact fun hcon => Option.noConfusion hcon
  · intro hne
    obtain ⟨v, hv⟩ := Option.ne_none_iff_exists'.mp hne
    obtain ⟨j, hj, hjk, _⟩ := (hkv k v).mpr hv
    exact ⟨j, hj, hjk⟩

theorem models_insert {sl : SkipList K V} {m : K → Option V} (hm : Models sl m)
    (k : K) (v : V) {lvl : Nat} (h1 : 1 ≤ lvl) (hM : lvl ≤ MAX_LEVEL) :
    ∃ sl', sl.insertH k v lvl = some sl' ∧
      Models sl' (fun k' => if k' = k then some v else m k') ∧
      (m k = none → sl'.size = sl.size + 1) ∧
      (m k ≠ none → sl'.size = sl.size) := by
  obtain ⟨sl', hrun, hinv', hnew, holdk, hpres, habs⟩ := insertH_step hm.1 k v h1 hM
  obtain ⟨hinv, hkv⟩ := hm
  refine ⟨sl', hrun, ⟨hinv', ?_⟩, ?_, ?_⟩
  rotate_left
  · intro hmk
    refine (habs ?_).1
    rw [models_hasKey ⟨hinv, hkv⟩ k, hmk]
    exact fun h => h rfl
  · intro hmk
    refine (hpres ?_).1
    rw [models_hasKey ⟨hinv, hkv⟩ k]
    exact hmk
  intro k' v'
  simp only []
  by_cases hkk : k' = k
  · subst hkk
    rw [if_pos rfl, hnew v']
    constructor
    · rintro rfl
      rfl
    · intro h
      exact (Option.some.inj h).symm
  · rw [if_neg hkk, holdk k' hkk v']
    exact hkv k' v'

theorem models_new : Models (SkipList.new : SkipList K V) (fun _ => none) := by
  refine ⟨inv_new, ?_⟩
  intro k' v'
  constructor
  · rintro ⟨j, hj, _⟩
    exact absurd hj (not_realIdx_new j)
  · intro h
    exact Option.noConfusion h

theorem models_get {sl : SkipList K V} {m : K → Option V} (hm : Models sl m) (k : K) :
    sl.get k = some (m k) := by
  obtain ⟨hinv, hkv⟩ := hm
  cases hres : m k with
  | some v =>
    apply get_eq_of_hasKV hinv
    exact (hkv k v).mpr hres
  | none =>
    apply get_eq_none hinv
    rintro ⟨j, hj, hjk⟩
    have h2 : HasKV sl k (nodeAt sl.nodes j).val := ⟨j, hj, hjk, rfl⟩
    rw [hkv] at h2
    rw [hres] at h2
    exact Option.noConfusion h2

theorem insertSeqR_models :
    ∀ (ops : List (K × V)) (m : K → Option V) (coins : Nat → Nat → Nat) (j : Nat)
      (sl : SkipList K V), Models sl m →
      ∃ sl', insertSeqR coins sl ops j = some sl' ∧
        Models sl' (fun k => ops.foldl (fun acc pr => if pr.1 = k then some pr.2 else acc)
          (m k)) := by
  intro ops
  induction ops with
  | nil =>
    intro m coins j sl hm
    exact ⟨sl, rfl, hm⟩
  | cons pr t ih =>
    intro m coins j sl hm
    obtain ⟨k, v⟩ := pr
    obtain ⟨sl1, hrun1, hm1, _⟩ := models_insert hm k v (rand_lvl_pos _) (rand_lvl_le _)
    obtain ⟨sl', hrun', hm'⟩ := ih (fun k' => if k' = k then some v else m k') coins (j + 1)
      sl1 hm1
    refine ⟨sl', ?_, ?_⟩
    · simp only [insertSeqR]
      rw [hrun1]
      simp only [Option.bind_eq_bind, Option.some_bind]
      exact hrun'
    · have hfeq : (fun k0 => ((k, v) :: t).foldl
          (fun acc pr => if pr.1 = k0 then some pr.2 else acc) (m k0)) =
          (fun k0 => t.foldl (fun acc pr => if pr.1 = k0 then some pr.2 else acc)
            (if k0 = k then some v else m k0)) := by
        funext k0
        rw [List.foldl_cons]
        congr 1
        by_cases h : k = k0
        · rw [if_pos h, if_pos h.symm]
        · rw [if_neg h, if_neg (fun hh => h hh.symm)]
      rw [hfeq]
      exact hm'

/-- C1: lookup correctness.  For every sequence of inserts (with the tower
heights drawn by `rand_lvl` from arbitrary coin streams), `get k` returns the
value of the most recent insert with key `k`, and absent (`None`) when `k` was
never inserted (`applyOps` is exactly that reference semantics, and it yields
`none` on the empty history).  The same holds for `get_mut`.  The outer `some`
says the lookup executes without hitting any failure branch. -/
theorem C1_lookup_correct (ops : List (K × V)) (coins : Nat → Nat → Nat) (k : K) :
    ∃ sl, insertSeqR coins (SkipList.new : SkipList K V) ops 0 = some sl ∧
      sl.get k = some (applyOps ops k) ∧ sl.get_mut k = some (applyOps ops k) := by
  obtain ⟨sl, hrun, hm⟩ := insertSeqR_models ops (fun _ => none) coins 0 _ models_new
  have hget : sl.get k = some (applyOps ops k) := models_get hm k
  refine ⟨sl, hrun, hget, ?_⟩
  rw [get_mut_eq_get]
  exact hget

/-! ### The per-level chains -/

theorem chainFrom_spec {sl : SkipList K V} (hinv : Inv sl) (i : Nat) (hi : i < MAX_LEVEL) :
    ∀ fuel (b : Option K) (t : Option Nat), IsLeastSucc sl.nodes b i t →
      countAbove sl.nodes b i < fuel →
      ∃ l, chainFrom sl.nodes i fuel t = some l ∧
        (∀ q, q ∈ l ↔ SuccK sl.nodes b i q) ∧
        List.Pairwise (fun a c => keyAt sl.nodes a < keyAt sl.nodes c) l := by
  intro fuel
  induction fuel with
  | zero =>
    intro b t _ hf
    exact absurd hf (Nat.not_lt_zero _)
  | succ n ih =>
    intro b t hleast hf
    cases t with
    | none =>
      refine ⟨[], rfl, ?_, List.Pairwise.nil⟩
      intro q
      simp only [List.not_mem_nil, false_iff]
      exact fun hq => hleast q hq
    | some c =>
      obtain ⟨hs, hmin⟩ := hleast
      have hc : c < sl.nodes.length := hs.1.1.2
      have hch : i < heightAt sl.nodes c := hs.1.2
      simp only [chainFrom]
      rw [nodeAt_getElem hc]
      simp only [Option.bind_eq_bind, Option.some_bind]
      rw [towAt_getElem hch]
      simp only [Option.some_bind]
      have hcanon := hinv.canon c i hc hch
      have hcb : boundOf sl.nodes c = some (keyAt sl.nodes c) :=
        boundOf_ne (by have := hs.1.1.1; omega)
      rw [hcb] at hcanon
      have hcount : countAbove sl.nodes (some (keyAt sl.nodes c)) i < n :=
        Nat.lt_of_lt_of_le (countAbove_lt_of_succ hs) (Nat.lt_succ_iff.mp hf)
      obtain ⟨rest, hrest, hmem, hpw⟩ := ih (some (keyAt sl.nodes c)) (towAt sl.nodes c i)
        hcanon hcount
      rw [hrest]
      simp only [Option.some_bind]
      refine ⟨c :: rest, rfl, ?_, ?_⟩
      · intro q
        rw [List.mem_cons, hmem q]
        constructor
        · rintro (rfl | hq)
          · exact hs
          · refine ⟨hq.1, ?_⟩
            cases b with
            | none => trivial
            | some kb =>
              show kb < keyAt sl.nodes q
              exact lt_trans hs.2 hq.2
        · intro hq
          rcases lt_or_eq_of_le (hmin q hq) with hlt | heq
          · right
            exact ⟨hq.1, hlt⟩
          · left
            exact hinv.inj q c hq.1.1 hs.1.1 heq.symm
      · exact List.Pairwise.cons (fun q hq => ((hmem q).mp hq).2) hpw

theorem levelChain_spec {sl : SkipList K V} (hinv : Inv sl) (i : Nat) (hi : i < MAX_LEVEL) :
    ∃ c, levelChain sl i = some c ∧
      (∀ q, q ∈ c ↔ (RealIdx sl.nodes q ∧ i < heightAt sl.nodes q)) ∧
      List.Pairwise (fun a b => keyAt sl.nodes a < keyAt sl.nodes b) c := by
  have hne : 0 < sl.nodes.length := List.length_pos.mpr hinv.ne
  have hih : i < heightAt sl.nodes 0 := by
    rw [hinv.headH]
    exact hi
  have hcanon := hinv.canon 0 i hne hih
  rw [boundOf_zero] at hcanon
  obtain ⟨c, hrun, hmem, hpw⟩ := chainFrom_spec hinv i hi (sl.nodes.length + 1) none
    (towAt sl.nodes 0 i) hcanon (Nat.lt_succ_of_le (countAbove_le _ _ _))
  refine ⟨c, ?_, ?_, hpw⟩
  · simp only [levelChain]
    rw [nodeAt_getElem hne]
    simp only [Option.bind_eq_bind, Option.some_bind]
    rw [towAt_getElem hih]
    simp only [Option.some_bind]
    exact hrun
  · intro q
    rw [hmem q]
    exact ⟨fun h => h.1, fun h => ⟨h, trivial⟩⟩

theorem sorted_mem_unique {nodes : List (Node K V)} {l1 l2 : List Nat}
    (h1 : List.Pairwise (fun a b => keyAt nodes a < keyAt nodes b) l1)
    (h2 : List.Pairwise (fun a b => keyAt nodes a < keyAt nodes b) l2)
    (hm : ∀ q, q ∈ l1 ↔ q ∈ l2) : l1 = l2 := by
  haveI : IsAntisymm Nat (fun a b => keyAt nodes a < keyAt nodes b) :=
    ⟨fun a b hab hba => absurd (lt_trans hab hba) (lt_irrefl _)⟩
  have nd1 : l1.Nodup := h1.imp (fun hab heq => absurd (heq ▸ hab) (lt_irrefl _))
  have nd2 : l2.Nodup := h2.imp (fun hab heq => absurd (heq ▸ hab) (lt_irrefl _))
  refine List.eq_of_perm_of_sorted ?_ h1 h2
  exact (nd1.subperm (fun q hq => (hm q).mp hq)).antisymm
    (nd2.subperm (fun q hq => (hm q).mpr hq))

theorem pairwise_nodup {nodes : List (Node K V)} {l : List Nat}
    (h : List.Pairwise (fun a b => keyAt nodes a < keyAt nodes b) l) : l.Nodup :=
  h.imp (fun hab heq => absurd (heq ▸ hab) (lt_irrefl _))

theorem levelChain_zero_facts {sl : SkipList K V} (hinv : Inv sl) :
    ∃ c0, levelChain sl 0 = some c0 ∧
      (∀ q, q ∈ c0 ↔ RealIdx sl.nodes q) ∧
      List.Pairwise (fun a b => keyAt sl.nodes a < keyAt sl.nodes b) c0 ∧
      c0.Nodup ∧ c0.length = sl.nodes.length - 1 := by
  have hM : (0 : Nat) < MAX_LEVEL := by decide
  obtain ⟨c0, hrun, hmem, hpw⟩ := levelChain_spec hinv 0 hM
  have hmem' : ∀ q, q ∈ c0 ↔ RealIdx sl.nodes q := by
    intro q
    rw [hmem q]
    exact ⟨fun h => h.1, fun h => ⟨h, hinv.hLB q h⟩⟩
  have hnd := pairwise_nodup hpw
  refine ⟨c0, hrun, hmem', hpw, hnd, ?_⟩
  have hfin : c0.toFinset = (Finset.range sl.nodes.length).erase 0 := by
    refine Finset.ext ?_
    intro q
    rw [List.mem_toFinset, Finset.mem_erase, Finset.mem_range, hmem' q]
    unfold RealIdx
    omega
  have hne : 0 < sl.nodes.length := List.length_pos.mpr hinv.ne
  have hcard : c0.toFinset.card = sl.nodes.length - 1 := by
    rw [hfin, Finset.card_erase_of_mem (Finset.mem_range.mpr hne), Finset.card_range]
  rw [← hcard]
  exact (List.toFinset_card_of_nodup hnd).symm

theorem levelChain_filter {sl : SkipList K V} (hinv : Inv sl) (i : Nat) (hi : i < MAX_LEVEL)
    {c0 ci : List Nat} (h0 : levelChain sl 0 = some c0)
    (h0m : ∀ q, q ∈ c0 ↔ RealIdx sl.nodes q)
    (h0pw : List.Pairwise (fun a b => keyAt sl.nodes a < keyAt sl.nodes b) c0)
    (hic : levelChain sl i = some ci) :
    ci = c0.filter (fun q => decide (i < heightAt sl.nodes q)) := by
  obtain ⟨ci', hrun', hmem', hpw'⟩ := levelChain_spec hinv i hi
  have hci : ci = ci' := by
    rw [hic] at hrun'
    exact Option.some.inj hrun'
  subst hci
  refine sorted_mem_unique hpw' (h0pw.sublist (List.filter_sublist c0)) ?_
  intro q
  rw [hmem' q, List.mem_filter, h0m q, decide_eq_true_iff]

theorem dropOrder_spec {sl : SkipList K V} (hinv : Inv sl) :
    ∃ ord c0, dropOrder sl = some ord ∧ levelChain sl 0 = some c0 ∧
      ord = c0 ++ [0] ∧ ord.Nodup := by
  obtain ⟨c0, hrun, hmem, _, hnd, _⟩ := levelChain_zero_facts hinv
  have hne : 0 < sl.nodes.length := List.length_pos.mpr hinv.ne
  have hih : 0 < heightAt sl.nodes 0 := by
    rw [hinv.headH]
    decide
  refine ⟨c0 ++ [0], c0, ?_, hrun, rfl, ?_⟩
  · simp only [dropOrder, levelChain] at hrun ⊢
    rw [nodeAt_getElem hne] at hrun ⊢
    simp only [Option.bind_eq_bind, Option.some_bind] at hrun ⊢
    rw [towAt_getElem hih] at hrun ⊢
    simp only [Option.some_bind] at hrun ⊢
    rw [hrun]
    simp only [Option.some_bind]
  · rw [List.nodup_append]
    refine ⟨hnd, List.nodup_singleton 0, ?_⟩
    intro q hq hq0
    rw [List.mem_singleton] at hq0
    subst hq0
    have := (hmem 0).mp hq
    have h1 := this.1
    omega

/-- C2: upsert semantics.  After any reachable state, inserting key `k` twice
with values `v1` then `v2` (any coin streams): the second insert finds the
equal-keyed node and overwrites its value in place — `len`, the arena length
(no new node), the level, every tower link and every key are unchanged — and
`get k` afterwards returns `v2`. -/
theorem C2_upsert (ops : List (K × V)) (coins : Nat → Nat → Nat) (cs1 cs2 : Nat → Nat)
    (k : K) (v1 v2 : V) :
    ∃ sl sl1 sl2,
      insertSeqR coins (SkipList.new : SkipList K V) ops 0 = some sl ∧
      sl.insert k v1 cs1 = some sl1 ∧
      sl1.insert k v2 cs2 = some sl2 ∧
      sl2.len = sl1.len ∧
      sl2.nodes.length = sl1.nodes.length ∧
      sl2.level = sl1.level ∧
      sl2.nodes.map (fun x => x.tower) = sl1.nodes.map (fun x => x.tower) ∧
      sl2.nodes.map (fun x => x.key) = sl1.nodes.map (fun x => x.key) ∧
      sl2.get k = some (some v2) := by
  obtain ⟨sl, hrun, hm⟩ := insertSeqR_models ops (fun _ => none) coins 0 _ models_new
  obtain ⟨sl1, hrun1, hm1, _⟩ := models_insert hm k v1 (rand_lvl_pos cs1) (rand_lvl_le cs1)
  have hkv1 : HasKV sl1 k v1 := by
    refine (hm1.2 k v1).mpr ?_
    simp
  have hkey1 : HasKey sl1 k := by
    obtain ⟨j, hj, hjk, _⟩ := hkv1
    exact ⟨j, hj, hjk⟩
  obtain ⟨sl2, d1, d2, d3, d4, d5, _, _, _, d9, _, d11, d12⟩ :=
    insertH_present_spec hm1.1 v2 (rand_lvl cs2) hkey1
  refine ⟨sl, sl1, sl2, hrun, hrun1, d1, d3, d5, d4, d11, d12, ?_⟩
  apply get_eq_of_hasKV d2
  exact (d9 v2).mpr rfl

theorem foldl_lookup_ne_none (k : K) :
    ∀ (t : List (K × V)) (init : Option V),
      (t.foldl (fun acc pr => if pr.1 = k then some pr.2 else acc) init ≠ none) ↔
        (init ≠ none ∨ k ∈ t.map Prod.fst) := by
  intro t
  induction t with
  | nil =>
    intro init
    simp
  | cons pr t ih =>
    intro init
    rw [List.foldl_cons, ih]
    by_cases h : pr.1 = k
    · constructor
      · intro _
        right
        rw [List.map_cons, List.mem_cons]
        exact Or.inl h.symm
      · intro _
        left
        rw [if_pos h]
        exact fun hcon => Option.noConfusion hcon
    · rw [if_neg h]
      constructor
      · rintro (h1 | h2)
        · exact Or.inl h1
        · right
          rw [List.map_cons, List.mem_cons]
          exact Or.inr h2
      · rintro (h1 | h2)
        · exact Or.inl h1
        · rw [List.map_cons, List.mem_cons] at h2
          rcases h2 with h3 | h3
          · exact absurd h3.symm h
          · exact Or.inr h3

/-- C3: size correctness.  After any sequence of inserts, `len()` equals the
number of distinct inserted keys, and the `size` field equals the number of
real nodes on the level-0 chain from the head — which carries every real node
of the arena. -/
theorem C3_size_correct (ops : List (K × V)) (coins : Nat → Nat → Nat) :
    ∃ sl, insertSeqR coins (SkipList.new : SkipList K V) ops 0 = some sl ∧
      sl.len = (ops.map Prod.fst).toFinset.card ∧
      ∃ c0, levelChain sl 0 = some c0 ∧ sl.size = c0.length ∧
        (∀ q, q ∈ c0 ↔ RealIdx sl.nodes q) := by
  obtain ⟨sl, hrun, hm⟩ := insertSeqR_models ops (fun _ => none) coins 0 _ models_new
  obtain ⟨hinv, hkv⟩ := hm
  obtain ⟨c0, hc0, hc0m, hc0pw, hc0nd, hc0len⟩ := levelChain_zero_facts hinv
  have hkeys : ∀ k, HasKey sl k ↔ k ∈ ops.map Prod.fst := by
    intro k
    constructor
    · rintro ⟨j, hj, hjk⟩
      have h1 : HasKV sl k (nodeAt sl.nodes j).val := ⟨j, hj, hjk, rfl⟩
      rw [hkv] at h1
      simp only [] at h1
      have h4 : ops.foldl (fun acc pr => if pr.1 = k then some pr.2 else acc)
          (none : Option V) ≠ none := by
        rw [h1]
        exact fun hcon => Option.noConfusion hcon
      rcases (foldl_lookup_ne_none k ops none).mp h4 with h5 | h5
      · exact absurd rfl h5
      · exact h5
    · intro hmem
      have h4 : ops.foldl (fun acc pr => if pr.1 = k then some pr.2 else acc)
          (none : Option V) ≠ none :=
        (foldl_lookup_ne_none k ops none).mpr (Or.inr hmem)
      obtain ⟨v, hv⟩ := Option.ne_none_iff_exists'.mp h4
      have h5 : HasKV sl k v := (hkv k v).mpr (by simp only []; exact hv)
      obtain ⟨j, hj, hjk, _⟩ := h5
      exact ⟨j, hj, hjk⟩
  have hmapnd : (c0.map (fun q => keyAt sl.nodes q)).Nodup := by
    refine List.Nodup.map_on ?_ hc0nd
    intro x hx y hy hxy
    exact hinv.inj x y ((hc0m x).mp hx) ((hc0m y).mp hy) hxy
  have hsetEq : (c0.map (fun q => keyAt sl.nodes q)).toFinset = (ops.map Prod.fst).toFinset := by
    refine Finset.ext ?_
    intro k
    rw [List.mem_toFinset, List.mem_toFinset, List.mem_map]
    constructor
    · rintro ⟨q, hq, rfl⟩
      exact (hkeys _).mp ⟨q, (hc0m q).mp hq, rfl⟩
    · intro hk
      obtain ⟨j, hj, hjk⟩ := (hkeys k).mpr hk
      exact ⟨j, (hc0m j).mpr hj, hjk⟩
  have hlen2 : sl.len = (ops.map Prod.fst).toFinset.card := by
    rw [← hsetEq, List.toFinset_card_of_nodup hmapnd, List.length_map]
    show sl.size = c0.length
    rw [hc0len, hinv.szEq]
  refine ⟨sl, hrun, hlen2, c0, hc0, ?_, hc0m⟩
  rw [hc0len, hinv.szEq]

/-- C4: structural ordering invariant.  After any sequence of inserts, the
level-0 chain from the head enumerates strictly increasing keys (hence no
duplicates), every real node appears on it exactly once, and for every level
`i` the level-`i` chain is exactly the level-0 chain filtered to the nodes of
height `> i` — a strictly increasing subsequence (`Sublist`) of the level-0
chain. -/
theorem C4_ordering_invariant (ops : List (K × V)) (coins : Nat → Nat → Nat) :
    ∃ sl c0, insertSeqR coins (SkipList.new : SkipList K V) ops 0 = some sl ∧
      levelChain sl 0 = some c0 ∧
      List.Pairwise (fun a b => keyAt sl.nodes a < keyAt sl.nodes b) c0 ∧
      (∀ q, RealIdx sl.nodes q → c0.count q = 1) ∧
      (∀ i, i < MAX_LEVEL → ∃ ci, levelChain sl i = some ci ∧
        ci = c0.filter (fun q => decide (i < heightAt sl.nodes q)) ∧
        ci.Sublist c0 ∧
        List.Pairwise (fun a b => keyAt sl.nodes a < keyAt sl.nodes b) ci) := by
  obtain ⟨sl, hrun, hm⟩ := insertSeqR_models ops (fun _ => none) coins 0 _ models_new
  obtain ⟨hinv, _⟩ := hm
  obtain ⟨c0, hc0, hc0m, hc0pw, hc0nd, _⟩ := levelChain_zero_facts hinv
  refine ⟨sl, c0, hrun, hc0, hc0pw, ?_, ?_⟩
  · intro q hq
    have hmem := (hc0m q).mpr hq
    refine le_antisymm (List.nodup_iff_count_le_one.mp hc0nd q) ?_
    rw [Nat.succ_le_iff]
    exact List.count_pos_iff.mpr hmem
  · intro i hi
    obtain ⟨ci, hci, hcim, hcipw⟩ := levelChain_spec hinv i hi
    have hfilt := levelChain_filter hinv i hi hc0 hc0m hc0pw hci
    refine ⟨ci, hci, hfilt, ?_, hcipw⟩
    rw [hfilt]
    exact List.filter_sublist c0

/-- C5: traversal correctness.  Under the structural invariant,
`find_gt_or_eq_node` succeeds and returns (a) the first real node whose key is
`≥ target` (none when no such node exists) and (b), for every level index
below the current level, the last node whose key is `< target` at that level
(the walk descends level by level from the pointer where the previous level
stopped, which is why the lower predecessors refine the upper ones); entries
at and above the current level keep their initial `None`. -/
theorem C5_traversal (sl : SkipList K V) (hinv : Inv sl) (target : K) :
    ∃ cand upd, sl.find_gt_or_eq_node target = some (cand, upd) ∧
      IsCandidate sl.nodes target cand ∧
      upd.length = MAX_LEVEL ∧
      (∀ i, i < sl.level → ∃ p, upd[i]? = some (some p) ∧ IsPredAt sl.nodes target i p) ∧
      (∀ i, sl.level ≤ i → i < MAX_LEVEL → upd[i]? = some none) :=
  find_spec hinv target

theorem C5_traversal_witness :
    ∃ cand upd, (SkipList.new : SkipList Int Int).find_gt_or_eq_node 0 = some (cand, upd) ∧
      IsCandidate (SkipList.new : SkipList Int Int).nodes 0 cand ∧
      upd.length = MAX_LEVEL ∧
      (∀ i, i < (SkipList.new : SkipList Int Int).level → ∃ p, upd[i]? = some (some p) ∧
        IsPredAt (SkipList.new : SkipList Int Int).nodes 0 i p) ∧
      (∀ i, (SkipList.new : SkipList Int Int).level ≤ i → i < MAX_LEVEL →
        upd[i]? = some none) :=
  C5_traversal SkipList.new inv_new 0

/-- C6: insert of an absent key.  `insert` draws the height `rand_lvl coins`;
the new level is the `max` of the old level and the drawn height (so the
level never decreases, and does not change unless the drawn height exceeds
it); the new node (at the fresh arena index) has exactly the drawn height;
and for every level `i` below the drawn height there is a predecessor — the
last node below the key at level `i`, which is the head for the levels at or
above the old level — whose old forward pointer becomes the new node's
level-`i` pointer before the predecessor is repointed to the new node. -/
theorem C6_insert_absent (sl : SkipList K V) (hinv : Inv sl) (k : K) (v : V)
    (coins : Nat → Nat) (hk : ¬ HasKey sl k) :
    ∃ sl', sl.insert k v coins = some sl' ∧
      sl'.level = max sl.level (rand_lvl coins) ∧
      sl.level ≤ sl'.level ∧
      (rand_lvl coins ≤ sl.level → sl'.level = sl.level) ∧
      heightAt sl'.nodes sl.nodes.length = rand_lvl coins ∧
      sl'.nodes.length = sl.nodes.length + 1 ∧
      (∀ i, i < rand_lvl coins → ∃ q, IsPredAt sl.nodes k i q ∧
        towAt sl'.nodes sl.nodes.length i = towAt sl.nodes q i ∧
        towAt sl'.nodes q i = some sl.nodes.length ∧
        (sl.level ≤ i → q = 0)) := by
  obtain ⟨upd, hulen, hbelow, hred⟩ := insertH_to_insertNew hinv v (rand_lvl coins) hk
  obtain ⟨sl', c1, _, _, c4, c5, _, _, c8, _, c10, _, _⟩ :=
    insertNew_spec hinv v (rand_lvl_pos coins) (rand_lvl_le coins) hk hulen hbelow
  rw [SkipList.insert, hred]
  refine ⟨sl', c1, c4, ?_, ?_, c8, c5, c10⟩
  · rw [c4]
    exact le_max_left _ _
  · intro hle
    rw [c4, max_eq_left hle]

theorem C6_insert_absent_witness :
    ∃ sl', (SkipList.new : SkipList Int Int).insert 0 0 (fun _ => 1) = some sl' ∧
      sl'.level = max (SkipList.new : SkipList Int Int).level (rand_lvl (fun _ => 1)) ∧
      (SkipList.new : SkipList Int Int).level ≤ sl'.level ∧
      (rand_lvl (fun _ => 1) ≤ (SkipList.new : SkipList Int Int).level →
        sl'.level = (SkipList.new : SkipList Int Int).level) ∧
      heightAt sl'.nodes (SkipList.new : SkipList Int Int).nodes.length =
        rand_lvl (fun _ => 1) ∧
      sl'.nodes.length = (SkipList.new : SkipList Int Int).nodes.length + 1 ∧
      (∀ i, i < rand_lvl (fun _ => 1) →
        ∃ q, IsPredAt (SkipList.new : SkipList Int Int).nodes 0 i q ∧
        towAt sl'.nodes (SkipList.new : SkipList Int Int).nodes.length i =
          towAt (SkipList.new : SkipList Int Int).nodes q i ∧
        towAt sl'.nodes q i = some (SkipList.new : SkipList Int Int).nodes.length ∧
        ((SkipList.new : SkipList Int Int).level ≤ i → q = 0)) :=
  C6_insert_absent SkipList.new inv_new 0 0 (fun _ => 1) (not_hasKey_new 0)

/-- C9: tower-bounds safety.  In the `Option` embedding every unchecked tower
access is a fallible read and `none` marks the out-of-bounds (or unwrap)
branch; under the structural invariant `get`, `get_mut`, `insert` and the
teardown walk all return `some`, so the out-of-bounds branch is unreachable;
the teardown order additionally frees each node exactly once, and `rand_lvl`
always draws a height in `[1, MAX_LEVEL]`. -/
theorem C9_tower_bounds (sl : SkipList K V) (hinv : Inv sl) (k : K) (v : V)
    (coins : Nat → Nat) :
    (∃ r, sl.get k = some r) ∧
    (∃ r, sl.get_mut k = some r) ∧
    (∃ sl', sl.insert k v coins = some sl') ∧
    (∃ ord, dropOrder sl = some ord ∧ ord.Nodup) ∧
    1 ≤ rand_lvl coins ∧ rand_lvl coins ≤ MAX_LEVEL := by
  have hget : ∃ r, sl.get k = some r := by
    by_cases hkk : HasKey sl k
    · obtain ⟨j, hj, hjk⟩ := hkk
      exact ⟨some (nodeAt sl.nodes j).val, get_eq_of_hasKV hinv ⟨j, hj, hjk, rfl⟩⟩
    · exact ⟨none, get_eq_none hinv hkk⟩
  refine ⟨hget, ?_, ?_, ?_, rand_lvl_pos coins, rand_lvl_le coins⟩
  · rw [get_mut_eq_get]
    exact hget
  · obtain ⟨sl', hrun, _⟩ := insertH_step hinv k v (rand_lvl_pos coins) (rand_lvl_le coins)
    exact ⟨sl', hrun⟩
  · obtain ⟨ord, c0, d1, _, _, d4⟩ := dropOrder_spec hinv
    exact ⟨ord, d1, d4⟩

theorem C9_tower_bounds_witness :
    (∃ r, (SkipList.new : SkipList Int Int).get 0 = some r) ∧
    (∃ r, (SkipList.new : SkipList Int Int).get_mut 0 = some r) ∧
    (∃ sl', (SkipList.new : SkipList Int Int).insert 0 0 (fun _ => 1) = some sl') ∧
    (∃ ord, dropOrder (SkipList.new : SkipList Int Int) = some ord ∧ ord.Nodup) ∧
    1 ≤ rand_lvl (fun _ => 1) ∧ rand_lvl (fun _ => 1) ≤ MAX_LEVEL :=
  C9_tower_bounds SkipList.new inv_new 0 0 (fun _ => 1)

theorem runOps_equiv :
    ∀ (ops : List (Op K V)) (sl1 sl2 : SkipList K V) (m : K → Option V)
      (c1 c2 : Nat → Nat → Nat) (j1 j2 : Nat),
      Models sl1 m → Models sl2 m → sl1.size = sl2.size →
      ∃ l, runOps c1 sl1 ops j1 = some l ∧ runOps c2 sl2 ops j2 = some l := by
  intro ops
  induction ops with
  | nil =>
    intro sl1 sl2 m c1 c2 j1 j2 _ _ _
    exact ⟨[], rfl, rfl⟩
  | cons op t ih =>
    intro sl1 sl2 m c1 c2 j1 j2 hm1 hm2 hsz
    cases op with
    | ins k v =>
      obtain ⟨sl1', hrun1, hm1', habs1, hpres1⟩ :=
        models_insert hm1 k v (rand_lvl_pos _) (rand_lvl_le _)
      obtain ⟨sl2', hrun2, hm2', habs2, hpres2⟩ :=
        models_insert hm2 k v (rand_lvl_pos _) (rand_lvl_le _)
      have hsz' : sl1'.size = sl2'.size := by
        cases hmk : m k with
        | none => rw [habs1 hmk, habs2 hmk, hsz]
        | some v0 =>
          have hne : m k ≠ none := by
            rw [hmk]
            exact fun h => Option.noConfusion h
          rw [hpres1 hne, hpres2 hne, hsz]
      obtain ⟨l, hl1, hl2⟩ := ih sl1' sl2' _ c1 c2 (j1 + 1) (j2 + 1) hm1' hm2' hsz'
      refine ⟨l, ?_, ?_⟩
      · simp only [runOps]
        rw [hrun1]
        simp only [Option.bind_eq_bind, Option.some_bind]
        exact hl1
      · simp only [runOps]
        rw [hrun2]
        simp only [Option.bind_eq_bind, Option.some_bind]
        exact hl2
    | get k =>
      obtain ⟨l, hl1, hl2⟩ := ih sl1 sl2 m c1 c2 j1 j2 hm1 hm2 hsz
      refine ⟨Obs.found (m k) :: l, ?_, ?_⟩
      · simp only [runOps]
        rw [models_get hm1 k]
        simp only [Option.bind_eq_bind, Option.some_bind]
        rw [hl1]
        simp only [Option.some_bind]
      · simp only [runOps]
        rw [models_get hm2 k]
        simp only [Option.bind_eq_bind, Option.some_bind]
        rw [hl2]
        simp only [Option.some_bind]
    | getMut k =>
      obtain ⟨l, hl1, hl2⟩ := ih sl1 sl2 m c1 c2 j1 j2 hm1 hm2 hsz
      refine ⟨Obs.found (m k) :: l, ?_, ?_⟩
      · simp only [runOps]
        rw [get_mut_eq_get, models_get hm1 k]
        simp only [Option.bind_eq_bind, Option.some_bind]
        rw [hl1]
        simp only [Option.some_bind]
      · simp only [runOps]
        rw [get_mut_eq_get, models_get hm2 k]
        simp only [Option.bind_eq_bind, Option.some_bind]
        rw [hl2]
        simp only [Option.some_bind]
    | len =>
      obtain ⟨l, hl1, hl2⟩ := ih sl1 sl2 m c1 c2 j1 j2 hm1 hm2 hsz
      refine ⟨Obs.count sl1.len :: l, ?_, ?_⟩
      · simp only [runOps]
        rw [hl1]
        simp only [Option.bind_eq_bind, Option.some_bind]
      · simp only [runOps]
        rw [hl2]
        simp only [Option.bind_eq_bind, Option.some_bind]
        rw [show sl2.len = sl1.len from hsz.symm]

/-- C10: randomness independence.  For any fixed program of `insert`, `get`,
`get_mut` and `len` calls, two runs that draw their tower heights from
arbitrary, possibly different, coin streams produce exactly the same list of
observations (lookup results and sizes), and both runs succeed: the random
heights only shape the internal towers, never the observable behaviour. -/
theorem C10_randomness_independence (ops : List (Op K V)) (c1 c2 : Nat → Nat → Nat) :
    ∃ l, runOps c1 (SkipList.new : SkipList K V) ops 0 = some l ∧
      runOps c2 (SkipList.new : SkipList K V) ops 0 = some l :=
  runOps_equiv ops _ _ (fun _ => none) c1 c2 0 0 models_new models_new rfl

/-! ### Allocation arithmetic (C7, C8) -/

/-- C7: error handling of the allocation path.  For every `K`, `V` for which
`Node<K, V>` is a valid Rust type, `size_of::<K>() + size_of::<V>() + 16` is
at most `isize::MAX` (a type's size never exceeds `isize::MAX` and the
`repr(C)` node struct contains all three headers), and heights are at most
`MAX_LEVEL`; under these bounds the `usize` size computation of `Node::alloc`
cannot overflow, a node is linked only when the layout was accepted and the
allocator returned memory (with the exact requested size), allocation failure
always ends in a fatal `unwrap` abort rather than a linked node, and an
oversized layout is rejected by `Layout::from_size_align` before any
allocation is attempted, whatever the allocator would do. -/
theorem C7_alloc_error_handling (sK sV h : Nat)
    (hKV : sK + sV + 16 ≤ ISIZE_MAX) (hh : h ≤ MAX_LEVEL) :
    allocSize sK sV h < USIZE ∧
    (∀ b sz, nodeAllocModel sK sV h b = AllocStep.proceeds sz →
      b = true ∧ sz = allocSize sK sV h ∧ sz + 15 ≤ ISIZE_MAX) ∧
    (nodeAllocModel sK sV h false = AllocStep.allocFailedAbort ∨
      nodeAllocModel sK sV h false = AllocStep.layoutError) ∧
    (ISIZE_MAX < allocSize sK sV h + 15 →
      ∀ b, nodeAllocModel sK sV h b = AllocStep.layoutError) := by
  have e1 : ISIZE_MAX = 9223372036854775807 := by norm_num [ISIZE_MAX]
  have e2 : USIZE = 18446744073709551616 := by norm_num [USIZE]
  have e3 : MAX_LEVEL = 20 := rfl
  rw [e1] at hKV
  rw [e3] at hh
  have hlt : allocSize sK sV h < USIZE := by
    rw [allocSize, e2]
    omega
  have hw : allocSizeWrapped sK sV h = allocSize sK sV h := by
    rw [allocSizeWrapped, allocSize, Nat.mod_eq_of_lt]
    rw [allocSize] at hlt
    exact hlt
  refine ⟨hlt, ?_, ?_, ?_⟩
  · intro b sz heq
    rw [nodeAllocModel, hw] at heq
    by_cases h1 : allocSize sK sV h + 15 ≤ ISIZE_MAX
    · rw [if_pos h1] at heq
      cases b
      · exact absurd heq (by simp)
      · rw [if_pos rfl] at heq
        cases heq
        exact ⟨rfl, rfl, h1⟩
    · rw [if_neg h1] at heq
      exact absurd heq (by simp)
  · rw [nodeAllocModel, hw]
    by_cases h1 : allocSize sK sV h + 15 ≤ ISIZE_MAX
    · rw [if_pos h1]
      left
      rfl
    · rw [if_neg h1]
      right
      rfl
  · intro hbig b
    rw [nodeAllocModel, hw, if_neg]
    omega

theorem C7_alloc_error_handling_witness :
    allocSize 4 4 1 < USIZE ∧
    (∀ b sz, nodeAllocModel 4 4 1 b = AllocStep.proceeds sz →
      b = true ∧ sz = allocSize 4 4 1 ∧ sz + 15 ≤ ISIZE_MAX) ∧
    (nodeAllocModel 4 4 1 false = AllocStep.allocFailedAbort ∨
      nodeAllocModel 4 4 1 false = AllocStep.layoutError) ∧
    (ISIZE_MAX < allocSize 4 4 1 + 15 →
      ∀ b, nodeAllocModel 4 4 1 b = AllocStep.layoutError) :=
  C7_alloc_error_handling 4 4 1 (by norm_num [ISIZE_MAX]) (by decide)

/-- C8: the allocation size computed by `Node::alloc` omits the `repr(C)`
padding between fields, so it is NOT always sufficient for the node's declared
layout: for `K = u8` (size 1) and `V = u64` (size 8, alignment 8) at height 1
the code requests 33 bytes while the layout of `Node<u8, u64>` needs 40 (the
value field is padded to offset 8, so the single tower slot occupies bytes
32..40); the tower write in `Node::alloc`'s initialization loop is already out
of bounds. -/
theorem C8_alloc_undersized :
    allocSize 1 8 1 = 33 ∧ nodeNeededSize 1 8 8 1 = 40 ∧
      allocSize 1 8 1 < nodeNeededSize 1 8 8 1 := by
  refine ⟨rfl, ?_, ?_⟩ <;> norm_num [nodeNeededSize, alignUp, allocSize]

/-! ### Concrete executions of the embedding -/

/-- Inserting keys 0, 2, 1 (with the heights `rand_lvl` draws from small coin
streams) yields a list of three nodes at level 2 where present keys are found
and absent keys are not — the embedding executes. -/
theorem exec_small_run :
    (do
      let sl ← insertSeqR (fun i j => i + j) (SkipList.new : SkipList Int Int)
        [(0, 0), (2, 2), (1, 1)] 0
      let a ← sl.get 1
      let b ← sl.get 5
      some (sl.len, a, b, sl.level)) = some (3, some 1, none, 2) := by
  rfl

/-- Re-inserting key 1 overwrites its value in place, keeps `len` at 3, and
teardown then frees the three real nodes in key order followed by the head,
each exactly once. -/
theorem exec_upsert_and_drop :
    (do
      let sl ← insertSeqR (fun i j => i * j + i) (SkipList.new : SkipList Int Int)
        [(0, 0), (1, 1), (2, 2), (1, 7)] 0
      let a ← sl.get 1
      let ord ← dropOrder sl
      some (sl.len, a, ord)) = some (3, some 7, [1, 2, 3, 0]) := by
  rfl

/-- For the repository's own test instantiation `K = V = i32` the `repr(C)`
layout has no inter-field padding, so the under-allocation of `Node::alloc`
(C8) is invisible there: requested and needed sizes coincide. -/
theorem exec_alloc_exact_for_i32 :
    allocSize 4 4 1 = nodeNeededSize 4 4 4 1 := by
  decide

end RustySkipList
